import Mathlib

/-!
Verification development for the hubproxy-node reverse proxy.

Shallow embedding of the relevant JavaScript source files:
  * `src/routes/github.js`  (GitHub/HF proxy and Docker registry proxy)
  * `src/utils/httpClient.js` (CIDR engine, IP normalization, rate limiter)
  * `src/utils/cache.js`    (bounded TTL map)

Strings are modelled as Lean `String` / `List Char`; JS `Date.now()` and
token counts are modelled as `Nat` / `ℚ`; JS regular expressions are
translated into explicit scanning functions whose comments cite the regex
they implement.
-/

abbrev Str := List Char

/-- JS `.` (dot) in a regex without the `s` flag matches every character
except the line terminators `\n`, `\r`, U+2028 and U+2029. -/
def jsDotChar (c : Char) : Bool :=
  !(c = '\n' || c = '\r' || c = Char.ofNat 0x2028 || c = Char.ofNat 0x2029)

namespace Registry

/-- Lazy-group split, the semantics of the JS regex `^(.+?)SEP(.+)$` applied
to a string already known to consist of dot-matchable characters: scanning
left to right, return the first split point `s = a ++ sep ++ b` with
`a ≠ []` and `b ≠ []` (backtracking of the lazy `(.+?)` advances the split
point one character at a time). `acc` holds the reversed prefix read so far. -/
def lazySplitAux (sep : Str) : Str → Str → Option (Str × Str)
  | _, [] => none
  | acc, c :: rest =>
    if acc.length ≥ 1 ∧ sep.isPrefixOf (c :: rest) ∧ (c :: rest).drop sep.length ≠ [] then
      some (acc.reverse, (c :: rest).drop sep.length)
    else
      lazySplitAux sep (c :: acc) rest

/-- The JS regex `^(.+?)SEP(.+)$` (as used with `SEP = /manifests/` and
`/blobs/` in `parseRegistryPath`, src/routes/github.js): it matches iff the
subject has no line terminators and admits a split, and the groups are the
leftmost such split. -/
def lazyGroupSplit (sep : Str) (s : Str) : Option (Str × Str) :=
  if s.all jsDotChar then lazySplitAux sep [] s else none

/-- The JS regex `^(.+?)\/tags\/list$`: the end anchor forces the unique
split point, so this matches iff the subject ends in `/tags/list` with a
nonempty line-terminator-free prefix. -/
def tagsListMatch (s : Str) : Option Str :=
  if s.all jsDotChar ∧ "/tags/list".data.isSuffixOf s ∧ s.length > "/tags/list".data.length
  then some (s.take (s.length - "/tags/list".data.length))
  else none

/-- A configured registry (an entry of `config.registries`). -/
structure RegistryMapping where
  upstream : String
  authType : String
  deriving Repr, DecidableEq

/-- The configured registry map, as a key-ordered association list. -/
abbrev RegistryConfig := List (String × RegistryMapping)

/-- A character of the interpolated domain inside the JS regex
`new RegExp("^/?" + domain + "/")`: the domain is interpolated unescaped,
so a `.` in the domain acts as the regex wildcard. -/
def domainCharMatches (p c : Char) : Bool :=
  (p = '.' && jsDotChar c) || p = c

/-- Match the interpolated pattern characters against the front of `l`,
returning the remaining characters on success. -/
def domainPatMatch : Str → Str → Option Str
  | [], rest => some rest
  | _ :: _, [] => none
  | p :: ps, c :: cs => if domainCharMatches p c then domainPatMatch ps cs else none

/-- `path.replace(new RegExp("^/?" + domain + "/"), '')` from
`detectRegistryDomain` (src/routes/github.js): the greedy `/?` first tries
to consume a leading slash. If the pattern does not match at the start the
string is returned unchanged. -/
def stripDomainRegex (domain : Str) (path : Str) : Str :=
  match path with
  | '/' :: rest =>
    match domainPatMatch (domain ++ ['/']) rest with
    | some r => r
    | none =>
      match domainPatMatch (domain ++ ['/']) path with
      | some r => r
      | none => path
  | _ =>
    match domainPatMatch (domain ++ ['/']) path with
    | some r => r
    | none => path

/-- `detectRegistryDomain` (src/routes/github.js, lines 220-233): scan the
configured registries in order; the first whose `domain + "/"` or
`"/" + domain + "/"` prefixes the path is stripped and returned. -/
def detectRegistryDomain (registries : RegistryConfig) (path : String) :
    Option String × String :=
  match registries with
  | [] => (none, path)
  | (domain, _) :: rest =>
    if (domain ++ "/").data.isPrefixOf path.data
        ∨ ("/" ++ domain ++ "/").data.isPrefixOf path.data then
      (some domain, ⟨stripDomainRegex domain.data path.data⟩)
    else
      detectRegistryDomain rest path

/-- `getRegistryMapping` (src/routes/github.js): lookup in the config map. -/
def getRegistryMapping (registries : RegistryConfig) (domain : String) :
    Option RegistryMapping :=
  match registries.find? (fun p => p.1 = domain) with
  | some p => some p.2
  | none => none

/-- Result of `parseRegistryPath`. -/
structure ParsedPath where
  imageName : String
  apiType : String
  reference : String
  registryDomain : Option String
  deriving Repr, DecidableEq

/-- `path.replace(/^\/v2\/?/, '')`: remove a leading `/v2/` (greedy `/?`),
otherwise a leading `/v2`, otherwise leave the path unchanged. -/
def stripV2 (path : Str) : Str :=
  if "/v2/".data.isPrefixOf path then path.drop 4
  else if "/v2".data.isPrefixOf path then path.drop 3
  else path

/-- `parseRegistryPath` (src/routes/github.js, lines 247-274). -/
def parseRegistryPath (registries : RegistryConfig) (path : String) : ParsedPath :=
  match detectRegistryDomain registries ⟨stripV2 path.data⟩ with
  | (domain, cleanPath) =>
    match lazyGroupSplit "/manifests/".data cleanPath.data with
    | some (img, ref) => ⟨⟨img⟩, "manifests", ⟨ref⟩, domain⟩
    | none =>
      match lazyGroupSplit "/blobs/".data cleanPath.data with
      | some (img, ref) => ⟨⟨img⟩, "blobs", ⟨ref⟩, domain⟩
      | none =>
        match tagsListMatch cleanPath.data with
        | some img => ⟨⟨img⟩, "tags", "", domain⟩
        | none => ⟨cleanPath, "", "", domain⟩

/-- `DOCKER_HUB_REGISTRY` (src/routes/github.js). -/
def DOCKER_HUB_REGISTRY : String := "registry-1.docker.io"

/-- The `upstream` local of `buildUpstreamURL` (src/routes/github.js,
lines 335-342): the configured upstream, else Docker Hub. -/
def upstreamHost (registries : RegistryConfig) (registryDomain : Option String) : String :=
  match registryDomain with
  | some d =>
    match getRegistryMapping registries d with
    | some m => m.upstream
    | none => DOCKER_HUB_REGISTRY
  | none => DOCKER_HUB_REGISTRY

/-- Lines 344-347 of src/routes/github.js: for Docker Hub, an image without
a namespace gets `library/` prepended. -/
def hubImageName (registryDomain : Option String) (imageName : String) : String :=
  if registryDomain = none ∧ ¬ ('/' ∈ imageName.data) then "library/" ++ imageName
  else imageName

/-- The `url` local of `buildUpstreamURL` (line 349). -/
def registryBaseURL (registries : RegistryConfig) (registryDomain : Option String)
    (imageName : String) : String :=
  "https://" ++ upstreamHost registries registryDomain ++ "/v2/"
    ++ hubImageName registryDomain imageName

/-- `buildUpstreamURL` (src/routes/github.js, lines 334-360). -/
def buildUpstreamURL (registries : RegistryConfig) (registryDomain : Option String)
    (imageName : String) (apiType : String) (reference : String) : String :=
  if apiType = "manifests" then
    registryBaseURL registries registryDomain imageName ++ "/manifests/" ++ reference
  else if apiType = "blobs" then
    registryBaseURL registries registryDomain imageName ++ "/blobs/" ++ reference
  else if apiType = "tags" then
    registryBaseURL registries registryDomain imageName ++ "/tags/list"
  else registryBaseURL registries registryDomain imageName

/-- The token scope computed by `proxyDockerRegistry`
(src/routes/github.js, line 392):
`repository:${registryDomain ? imageName : (imageName.includes('/') ? imageName : 'library/' + imageName)}:pull`. -/
def pullScope (registryDomain : Option String) (imageName : String) : String :=
  "repository:" ++
    (match registryDomain with
     | some _ => imageName
     | none => if '/' ∈ imageName.data then imageName else "library/" ++ imageName)
    ++ ":pull"

/-- Scanning a separator that starts with `'/'` through characters none of
which is `'/'` finds no earlier split point, so the leftmost lazy split of
`n ++ sep ++ ref` is exactly at the boundary. -/
theorem lazySplitAux_boundary (sepTail ref : Str) (href : ref ≠ []) :
    ∀ (n acc : Str), (∀ c ∈ n, c ≠ '/') → (acc = [] → n ≠ []) →
    lazySplitAux ('/' :: sepTail) acc (n ++ ('/' :: sepTail) ++ ref)
      = some (acc.reverse ++ n, ref) := by
  intro n
  induction n with
  | nil =>
    intro acc _ hacc
    have haccne : acc ≠ [] := fun h => (hacc h) rfl
    have hcons : (([] : Str) ++ ('/' :: sepTail) ++ ref) = '/' :: (sepTail ++ ref) := by simp
    rw [hcons]
    unfold lazySplitAux
    rw [if_pos]
    · simp
    · refine ⟨?_, ?_, ?_⟩
      · have := List.length_pos.mpr haccne
        omega
      · have : ('/' :: (sepTail ++ ref)) = ('/' :: sepTail) ++ ref := by simp
        rw [this]
        exact List.isPrefixOf_iff_prefix.mpr (List.prefix_append _ _)
      · have : ('/' :: (sepTail ++ ref)) = ('/' :: sepTail) ++ ref := by simp
        rw [this, List.drop_left]
        exact href
  | cons c n' ih =>
    intro acc hslash _
    have hc : c ≠ '/' := hslash c (by simp)
    have hcons : ((c :: n') ++ ('/' :: sepTail) ++ ref)
        = c :: (n' ++ ('/' :: sepTail) ++ ref) := by simp
    rw [hcons]
    unfold lazySplitAux
    rw [if_neg]
    · have := ih (c :: acc) (fun x hx => hslash x (by simp [hx])) (by simp)
      rw [this]
      simp
    · rintro ⟨-, hpre, -⟩
      rw [show (c :: (n' ++ ('/' :: sepTail) ++ ref))
            = c :: (n' ++ ('/' :: sepTail) ++ ref) from rfl] at hpre
      simp only [List.isPrefixOf] at hpre
      rw [Bool.and_eq_true, beq_iff_eq] at hpre
      exact hc hpre.1.symm

/-- The regex `^(.+?)\/manifests\/(.+)$` on `name ++ "/manifests/" ++ ref`
with a slash-free nonempty `name` and nonempty `ref` (all characters
dot-matchable) yields groups `(name, ref)`. -/
theorem lazyGroupSplit_boundary (name ref : Str) (hn : name ≠ [])
    (hns : ∀ c ∈ name, c ≠ '/') (hnd : name.all jsDotChar = true)
    (hrd : ref.all jsDotChar = true) (hr : ref ≠ []) :
    lazyGroupSplit "/manifests/".data (name ++ "/manifests/".data ++ ref)
      = some (name, ref) := by
  have hsep : "/manifests/".data = '/' :: "manifests/".data := rfl
  unfold lazyGroupSplit
  rw [if_pos]
  · rw [hsep]
    have := lazySplitAux_boundary "manifests/".data ref hr name [] hns (fun _ => hn)
    simpa using this
  · simp only [List.all_append, Bool.and_eq_true]
    exact ⟨⟨hnd, by decide⟩, hrd⟩

/-- When no configured registry host prefixes the path (and the path does
not start with a slash), `detectRegistryDomain` reports no domain and
leaves the path unchanged. -/
theorem detectRegistryDomain_none (registries : RegistryConfig) (p : String)
    (h : ∀ q ∈ registries, ¬ ((q.1 ++ "/").data.isPrefixOf p.data = true))
    (hhead : p.data.head? ≠ some '/') :
    detectRegistryDomain registries p = (none, p) := by
  induction registries with
  | nil => rfl
  | cons q rest ih =>
    unfold detectRegistryDomain
    rw [if_neg]
    · exact ih (fun r hr => h r (by simp [hr]))
    · rintro (h1 | h2)
      · exact h q (by simp) h1
      · have hdata : ("/" ++ q.1 ++ "/").data = '/' :: (q.1.data ++ "/".data) := by
          simp [String.data_append]
        rw [hdata] at h2
        cases hp : p.data with
        | nil => rw [hp] at h2; simp [List.isPrefixOf] at h2
        | cons c cs =>
          rw [hp] at h2
          simp only [List.isPrefixOf] at h2
          rw [Bool.and_eq_true, beq_iff_eq] at h2
          exact hhead (by rw [hp]; simp [← h2.1])

/-- Removing the leading `/v2/` from a path that starts with it. -/
theorem stripV2_append (rest : Str) : stripV2 ("/v2/".data ++ rest) = rest := by
  unfold stripV2
  rw [if_pos (List.isPrefixOf_iff_prefix.mpr (List.prefix_append _ _))]
  have h4 : ("/v2/".data).length = 4 := rfl
  rw [← h4, List.drop_left]

/-- C1: a request `GET /v2/<name>/manifests/<ref>` whose `<name>` has no
slash and does not begin with a configured registry host parses to image
`<name>` / api `manifests` / reference `<ref>` on Docker Hub, is dispatched
to `https://registry-1.docker.io/v2/library/<name>/manifests/<ref>`, and
requests a bearer token with scope `repository:library/<name>:pull`
(`library/` prepended for unscoped Docker Hub images). `<name>` and `<ref>`
are nonempty and free of regex line terminators. -/
theorem registry_docker_hub_library_dispatch
    (registries : RegistryConfig) (name ref : String)
    (hn : name.data ≠ []) (hns : ∀ c ∈ name.data, c ≠ '/')
    (hnd : name.data.all jsDotChar = true) (hrd : ref.data.all jsDotChar = true)
    (hr : ref.data ≠ [])
    (hreg : ∀ q ∈ registries, ¬ ((q.1 ++ "/").data.isPrefixOf
        (name ++ "/manifests/" ++ ref).data = true)) :
    parseRegistryPath registries ("/v2/" ++ name ++ "/manifests/" ++ ref)
        = ⟨name, "manifests", ref, none⟩
    ∧ buildUpstreamURL registries none name "manifests" ref
        = "https://registry-1.docker.io/v2/library/" ++ name ++ "/manifests/" ++ ref
    ∧ pullScope none name = "repository:library/" ++ name ++ ":pull" := by
  have hone : (name ++ "/manifests/" ++ ref).data
      = name.data ++ "/manifests/".data ++ ref.data := by
    simp [String.data_append]
  have hdata : ("/v2/" ++ name ++ "/manifests/" ++ ref).data
      = "/v2/".data ++ (name.data ++ "/manifests/".data ++ ref.data) := by
    simp [String.data_append]
  have hstrip : stripV2 ("/v2/" ++ name ++ "/manifests/" ++ ref).data
      = name.data ++ "/manifests/".data ++ ref.data := by
    rw [hdata, stripV2_append]
  have hhead : (⟨name.data ++ "/manifests/".data ++ ref.data⟩ : String).data.head? ≠ some '/' := by
    cases hnm : name.data with
    | nil => exact absurd hnm hn
    | cons c cs =>
      have hc := hns c (by rw [hnm]; simp)
      show ((c :: cs) ++ "/manifests/".data ++ ref.data).head? ≠ some '/'
      simpa using hc
  have hdet : detectRegistryDomain registries ⟨name.data ++ "/manifests/".data ++ ref.data⟩
      = (none, ⟨name.data ++ "/manifests/".data ++ ref.data⟩) := by
    apply detectRegistryDomain_none
    · intro q hq
      have := hreg q hq
      rw [hone] at this
      exact this
    · exact hhead
  have hsplit : lazyGroupSplit "/manifests/".data
      (name.data ++ "/manifests/".data ++ ref.data) = some (name.data, ref.data) :=
    lazyGroupSplit_boundary name.data ref.data hn hns hnd hrd hr
  have hparse : parseRegistryPath registries ("/v2/" ++ name ++ "/manifests/" ++ ref)
      = ⟨name, "manifests", ref, none⟩ := by
    unfold parseRegistryPath
    rw [hstrip, hdet]
    simp only [hsplit]
  refine ⟨hparse, ?_, ?_⟩
  · unfold buildUpstreamURL
    rw [if_pos rfl]
    unfold registryBaseURL upstreamHost hubImageName DOCKER_HUB_REGISTRY
    rw [if_pos ⟨rfl, fun h => hns '/' h rfl⟩]
    have hlit : ("https://registry-1.docker.io/v2/library/" : String)
        = "https://" ++ "registry-1.docker.io" ++ "/v2/" ++ "library/" := by decide
    rw [hlit]
    apply String.ext
    simp [String.data_append, List.append_assoc]
  · unfold pullScope
    rw [if_neg (fun h => hns '/' h rfl)]
    have hlit : ("repository:library/" : String) = "repository:" ++ "library/" := by decide
    rw [hlit]
    apply String.ext
    simp [String.data_append, List.append_assoc]

/-- Concrete instance of `registry_docker_hub_library_dispatch`:
the Docker Hub pull of `nginx:alpine` with `ghcr.io` configured. -/
theorem registry_docker_hub_library_dispatch_witness :
    parseRegistryPath [("ghcr.io", ⟨"ghcr.io", "github"⟩)]
        ("/v2/" ++ "nginx" ++ "/manifests/" ++ "alpine")
      = ⟨"nginx", "manifests", "alpine", none⟩
    ∧ buildUpstreamURL [("ghcr.io", ⟨"ghcr.io", "github"⟩)] none "nginx" "manifests" "alpine"
      = "https://registry-1.docker.io/v2/library/" ++ "nginx" ++ "/manifests/" ++ "alpine"
    ∧ pullScope none "nginx" = "repository:library/" ++ "nginx" ++ ":pull" :=
  registry_docker_hub_library_dispatch [("ghcr.io", ⟨"ghcr.io", "github"⟩)]
    "nginx" "alpine" (by decide) (by decide) (by decide) (by decide) (by decide)
    (by decide)

end Registry

namespace Proxy

/-- ASCII lowercasing, modelling JS `toLowerCase()` on the ASCII strings
(header names, URLs) this proxy manipulates. -/
def asciiLowerChar (c : Char) : Char :=
  if 'A' ≤ c ∧ c ≤ 'Z' then Char.ofNat (c.toNat + 32) else c

/-- ASCII `toLowerCase` on a string. -/
def asciiLower (s : String) : String := ⟨s.data.map asciiLowerChar⟩

/-- Headers are modelled as association lists of name/value pairs. -/
abbrev Headers := List (String × String)

/-- node-fetch `headers.get(name)` with `name` already lowercase:
case-insensitive lookup of the first matching header. -/
def hGet (hs : Headers) (name : String) : Option String :=
  match hs.find? (fun kv => asciiLower kv.1 = name) with
  | some kv => some kv.2
  | none => none

/-- Express `req.headers[name]`: Node lowercases incoming request header
names, so request-header keys are stored lowercase and looked up exactly. -/
def reqHeader (hs : Headers) (name : String) : Option String :=
  match hs.find? (fun kv => kv.1 = name) with
  | some kv => some kv.2
  | none => none

/-- JS `a || b` for an optional string `a`: the empty string is falsy. -/
def jsStrOr (a : Option String) (b : String) : String :=
  match a with
  | some s => if s = "" then b else s
  | none => b

/-- `req.headers['x-forwarded-host'] || req.headers.host || ''`
(src/routes/github.js line 430). -/
def proxyHostOf (hs : Headers) : String :=
  jsStrOr (reqHeader hs "x-forwarded-host") (jsStrOr (reqHeader hs "host") "")

/-- `req.headers['x-forwarded-proto'] || 'https'` (line 431). -/
def schemeOf (hs : Headers) : String :=
  jsStrOr (reqHeader hs "x-forwarded-proto") "https"

/-- Attempt to match the JS regex `realm="[^"]+"` at the head of `l`; on
success return the characters after the match (the greedy `[^"]+` runs to
the first quote, which must close the argument and be preceded by at least
one character). -/
def matchRealmAt (l : Str) : Option Str :=
  if "realm=\"".data.isPrefixOf l then
    if (l.drop 7).takeWhile (fun c => c ≠ '"') = [] then none
    else
      match (l.drop 7).dropWhile (fun c => c ≠ '"') with
      | '"' :: after => some after
      | _ => none
  else none

/-- `String.replace` with the non-global regex `realm="[^"]+"`: replace the
leftmost match by `repl`, scanning with reversed accumulator `acc`. -/
def replaceRealmAux (repl : Str) : Str → Str → Str
  | acc, [] => acc.reverse
  | acc, c :: rest =>
    match matchRealmAt (c :: rest) with
    | some after => acc.reverse ++ repl ++ after
    | none => replaceRealmAux repl (c :: acc) rest

/-- `wwwAuth.replace(/realm="[^"]+"/, repl)` (src/routes/github.js 432). -/
def replaceRealm (repl s : Str) : Str := replaceRealmAux repl [] s

/-- The replacement text `realm="<scheme>://<proxyHost>/token"`. -/
def realmReplacement (scheme host : String) : String :=
  "realm=\"" ++ scheme ++ "://" ++ host ++ "/token\""

/-- Lines 428-436: rewrite the upstream `www-authenticate` value. -/
def rewriteWwwAuth (reqHs : Headers) (wa : String) : String :=
  ⟨replaceRealm (realmReplacement (schemeOf reqHs) (proxyHostOf reqHs)).data wa.data⟩

/-- Lines 419-437 of src/routes/github.js: copy upstream response headers,
dropping hop headers and `www-authenticate`; re-add a rewritten
`www-authenticate` only when the upstream sent one. -/
def dockerRespHeaders (reqHs upHs : Headers) : Headers :=
  let base := upHs.filter (fun kv =>
    ¬ (asciiLower kv.1 ∈ (["transfer-encoding", "connection", "www-authenticate"] : List String)))
  match hGet upHs "www-authenticate" with
  | none => base
  | some wa => base ++ [("www-authenticate", rewriteWwwAuth reqHs wa)]

/-- `realm="[^"]+"` matches at the start of `"realm=\"" ++ v ++ "\"" ++ post`
when `v` is a nonempty run of non-quote characters, leaving `post`. -/
theorem matchRealmAt_boundary (v post : Str) (hv : v ≠ []) (hvq : '"' ∉ v) :
    matchRealmAt ("realm=\"".data ++ (v ++ '"' :: post)) = some post := by
  have hvp : ∀ a ∈ v, (fun c => decide (c ≠ '"')) a = true := by
    intro a ha
    simp only [decide_eq_true_eq]
    exact fun h => hvq (h ▸ ha)
  unfold matchRealmAt
  rw [if_pos (List.isPrefixOf_iff_prefix.mpr (List.prefix_append _ _))]
  have h7 : ("realm=\"".data).length = 7 := rfl
  rw [← h7, List.drop_left]
  rw [List.takeWhile_append_of_pos hvp, List.dropWhile_append_of_pos hvp]
  simp [hv]

/-- If the seventh character of `l` is not a quote, `realm="[^"]+"` cannot
match at the head of `l`. -/
theorem matchRealmAt_none_of_no_quote (l : Str) (h : l[6]? ≠ some '"') :
    matchRealmAt l = none := by
  unfold matchRealmAt
  rw [if_neg]
  intro hp
  rcases List.isPrefixOf_iff_prefix.mp hp with ⟨t, ht⟩
  apply h
  rw [← ht]
  rw [List.getElem?_append_left (by decide : (6 : Nat) < ("realm=\"".data).length)]
  rfl

/-- A nonempty quote-free block followed by the realm literal has no quote
at index 6. -/
theorem no_quote_at_six (q rest : Str) (hq : q ≠ []) (hqq : '"' ∉ q) :
    (q ++ ("realm=\"".data ++ rest))[6]? ≠ some '"' := by
  rcases Nat.lt_or_ge 6 q.length with hlt | hge
  · rw [List.getElem?_append_left hlt]
    intro hc
    exact hqq (List.getElem?_mem hc)
  · rw [List.getElem?_append_right hge]
    have hqpos : 0 < q.length := List.length_pos.mpr hq
    have hj : 6 - q.length ≤ 5 := by omega
    rw [List.getElem?_append_left (by
      have : ("realm=\"".data).length = 7 := rfl
      omega)]
    set j := 6 - q.length with hjdef
    interval_cases j <;> decide

/-- Scanning `pre ++ realm-argument ++ post` with a quote-free `pre` finds
the realm argument exactly at the boundary and replaces only it. -/
theorem replaceRealmAux_scan (repl v post : Str) (hv : v ≠ []) (hvq : '"' ∉ v) :
    ∀ (pre acc : Str), '"' ∉ pre →
    replaceRealmAux repl acc (pre ++ ("realm=\"".data ++ (v ++ '"' :: post)))
      = acc.reverse ++ (pre ++ (repl ++ post)) := by
  intro pre
  induction pre with
  | nil =>
    intro acc _
    have hm := matchRealmAt_boundary v post hv hvq
    have hshape : "realm=\"".data ++ (v ++ '"' :: post)
        = 'r' :: ("ealm=\"".data ++ (v ++ '"' :: post)) := rfl
    simp only [List.nil_append]
    rw [hshape]
    unfold replaceRealmAux
    rw [← hshape, hm]
    simp
  | cons c pre' ih =>
    intro acc hpre
    have hc : c ∉ ([] : Str) ∨ True := Or.inr trivial
    have hnm : matchRealmAt ((c :: pre') ++ ("realm=\"".data ++ (v ++ '"' :: post))) = none := by
      apply matchRealmAt_none_of_no_quote
      exact no_quote_at_six (c :: pre') (v ++ '"' :: post) (by simp) hpre
    rw [List.cons_append]
    unfold replaceRealmAux
    rw [← List.cons_append, hnm]
    have := ih (c :: acc) (fun h => hpre (List.mem_cons_of_mem c h))
    rw [this]
    simp

/-- C2: the Docker registry proxy forwards no `WWW-Authenticate` header when
the upstream sent none, and when the upstream value is
`pre ++ realm="v" ++ post` (quote-free `pre`, nonempty quote-free `v`) the
client receives `pre ++ realm="<scheme>://<host>/token" ++ post`, with
scheme from `X-Forwarded-Proto` (default `https`), host from
`X-Forwarded-Host` or `Host`, and everything outside the realm argument
preserved verbatim. -/
theorem www_authenticate_rewrite (reqHs upHs : Headers) :
    (hGet upHs "www-authenticate" = none →
      hGet (dockerRespHeaders reqHs upHs) "www-authenticate" = none)
    ∧ (∀ pre v post : String,
        hGet upHs "www-authenticate" = some (pre ++ "realm=\"" ++ v ++ "\"" ++ post) →
        '"' ∉ pre.data → v.data ≠ [] → '"' ∉ v.data →
        hGet (dockerRespHeaders reqHs upHs) "www-authenticate"
          = some (pre ++ realmReplacement (schemeOf reqHs) (proxyHostOf reqHs) ++ post)) := by
  have hbase : ∀ name, name ∈ (["transfer-encoding", "connection", "www-authenticate"] : List String) →
      (upHs.filter (fun kv =>
        ¬ (asciiLower kv.1 ∈ (["transfer-encoding", "connection", "www-authenticate"] : List String)))).find?
        (fun kv => asciiLower kv.1 = name) = none := by
    intro name hname
    rw [List.find?_eq_none]
    intro kv hkv
    have hnotin := (List.mem_filter.mp hkv).2
    simp only [decide_eq_true_eq] at hnotin ⊢
    intro heq
    exact hnotin (heq ▸ hname)
  constructor
  · intro hnone
    unfold dockerRespHeaders
    rw [hnone]
    unfold hGet
    rw [hbase "www-authenticate" (by simp)]
  · intro pre v post hwa hpre hv hvq
    have hdata : (pre ++ "realm=\"" ++ v ++ "\"" ++ post).data
        = pre.data ++ ("realm=\"".data ++ (v.data ++ '"' :: post.data)) := by
      simp [String.data_append]
    have hscan := replaceRealmAux_scan
      (realmReplacement (schemeOf reqHs) (proxyHostOf reqHs)).data
      v.data post.data hv hvq pre.data [] hpre
    have hval : rewriteWwwAuth reqHs (pre ++ "realm=\"" ++ v ++ "\"" ++ post)
        = pre ++ realmReplacement (schemeOf reqHs) (proxyHostOf reqHs) ++ post := by
      unfold rewriteWwwAuth replaceRealm
      rw [hdata, hscan]
      apply String.ext
      simp [String.data_append]
    have hfind : List.find? (fun kv => asciiLower kv.1 = "www-authenticate")
        ([("www-authenticate",
           rewriteWwwAuth reqHs (pre ++ "realm=\"" ++ v ++ "\"" ++ post))] :
          Headers) = some ("www-authenticate",
           rewriteWwwAuth reqHs (pre ++ "realm=\"" ++ v ++ "\"" ++ post)) :=
      List.find?_cons_of_pos _
        (by decide : decide (asciiLower "www-authenticate" = "www-authenticate") = true)
    unfold dockerRespHeaders
    rw [hwa]
    unfold hGet
    rw [List.find?_append, hbase "www-authenticate" (by simp), Option.none_or, hfind]
    exact congrArg some hval

/-- Concrete instance of `www_authenticate_rewrite`: the upstream 401
challenge of spec scenario 3, behind `Host: proxy.example`. -/
theorem www_authenticate_rewrite_witness :
    hGet (dockerRespHeaders
        [("x-forwarded-proto", "https"), ("host", "proxy.example")]
        [("content-type", "application/json"),
         ("www-authenticate",
          "Bearer realm=\"https://auth.docker.io/token\",service=\"registry.docker.io\"")])
      "www-authenticate"
    = some ("Bearer "
        ++ realmReplacement
            (schemeOf [("x-forwarded-proto", "https"), ("host", "proxy.example")])
            (proxyHostOf [("x-forwarded-proto", "https"), ("host", "proxy.example")])
        ++ ",service=\"registry.docker.io\"") :=
  (www_authenticate_rewrite
      [("x-forwarded-proto", "https"), ("host", "proxy.example")]
      [("content-type", "application/json"),
       ("www-authenticate",
        "Bearer realm=\"https://auth.docker.io/token\",service=\"registry.docker.io\"")]).2
    "Bearer " "https://auth.docker.io/token" ",service=\"registry.docker.io\""
    (by decide) (by decide) (by decide) (by decide)

/-- JS whitespace accepted by `parseInt` before the number. -/
def isJsSpace (c : Char) : Bool :=
  c = ' ' || c = '\t' || c = '\n' || c = '\r' ||
  c = Char.ofNat 0x0b || c = Char.ofNat 0x0c || c = Char.ofNat 0xa0 || c = Char.ofNat 0xfeff

/-- Numeric value of a list of decimal digit characters. -/
def decVal (l : Str) : Nat := l.foldl (fun a c => a * 10 + (c.toNat - 48)) 0

/-- JS `parseInt(s, 10)`: skip whitespace, optional sign, then maximal run
of decimal digits; `none` models `NaN` (no digits). -/
def parseIntJS (s : String) : Option Int :=
  let t := s.data.dropWhile isJsSpace
  match t with
  | '-' :: rest =>
    let d := rest.takeWhile Char.isDigit
    if d = [] then none else some (-(decVal d : Int))
  | '+' :: rest =>
    let d := rest.takeWhile Char.isDigit
    if d = [] then none else some ((decVal d : Int))
  | _ =>
    let d := t.takeWhile Char.isDigit
    if d = [] then none else some ((decVal d : Int))

/-- `blockedContentTypes` (src/routes/github.js, lines 25-30). -/
def blockedContentTypes : List String :=
  ["text/html", "application/xhtml+xml", "text/xml", "application/xml"]

/-- `(response.headers.get('content-type') || '').split(';')[0].toLowerCase()`
(line 118-119). -/
def baseContentType (ct : Option String) : String :=
  asciiLower ⟨(ct.getD "").data.takeWhile (fun c => c ≠ ';')⟩

/-- `location && response.status >= 300 && response.status < 400`
(line 111): an empty Location string is falsy. -/
def isRedirect (status : Nat) (location : Option String) : Bool :=
  match location with
  | some l => l ≠ "" && 300 ≤ status && status < 400
  | none => false

/-- Outcome of the response-gating phase of `proxyGitHubRequest`. -/
inductive GateResult where
  | followRedirect (loc : String)
  | blockedType
  | tooLarge
  | pass
  deriving Repr, DecidableEq

/-- Lines 109-138 of src/routes/github.js in order: follow a redirect;
otherwise block HTML-ish content types on successful GETs; otherwise
reject any response whose Content-Length parses above the size limit. -/
def gateDecision (method : String) (status : Nat) (location : Option String)
    (contentType : Option String) (contentLength : Option String)
    (fileSize : Int) : GateResult :=
  if isRedirect status location then .followRedirect (location.getD "")
  else if method = "GET" ∧ 200 ≤ status ∧ status < 300
      ∧ baseContentType contentType ∈ blockedContentTypes then .blockedType
  else
    match contentLength with
    | none => .pass
    | some cl =>
      if cl = "" then .pass
      else
        match parseIntJS cl with
        | some size => if size > fileSize then .tooLarge else .pass
        | none => .pass

/-- Whether a Content-Length header value exceeds the size limit (the
condition of lines 130-137, stated on its own). -/
def sizeExceeded (contentLength : Option String) (fileSize : Int) : Bool :=
  match contentLength with
  | none => false
  | some cl =>
    if cl = "" then false
    else
      match parseIntJS cl with
      | some size => size > fileSize
      | none => false

/-- C3 counterexample: the Content-Length gate fires on a final `GET` 404
response and on a `POST` response, so gating is not restricted to
successful GET requests. -/
theorem content_gate_counterexample :
    gateDecision "GET" 404 none none (some "3000000000") 2000000000 = GateResult.tooLarge
    ∧ gateDecision "POST" 200 none none (some "3000000000") 2000000000
        = GateResult.tooLarge := by
  constructor <;> decide

/-- C3 (amended): redirect responses are never gated; the content-type gate
fires exactly on successful (200-299) GET responses with a blocked primary
content type; and on any other final response the Content-Length gate fires
iff the header value parses above the limit, regardless of method or
status. -/
theorem content_gate_amended (method : String) (status : Nat)
    (location : Option String) (ct cl : Option String) (fileSize : Int) :
    (isRedirect status location = true →
      gateDecision method status location ct cl fileSize
        = GateResult.followRedirect (location.getD ""))
    ∧ (isRedirect status location = false →
        ((gateDecision method status location ct cl fileSize = GateResult.blockedType) ↔
          (method = "GET" ∧ 200 ≤ status ∧ status < 300
            ∧ baseContentType ct ∈ blockedContentTypes))
        ∧ (¬ (method = "GET" ∧ 200 ≤ status ∧ status < 300
              ∧ baseContentType ct ∈ blockedContentTypes) →
            ((gateDecision method status location ct cl fileSize = GateResult.tooLarge) ↔
              sizeExceeded cl fileSize = true))) := by
  unfold gateDecision sizeExceeded
  refine ⟨fun hr => by rw [if_pos hr], fun hr => ⟨?_, ?_⟩⟩
  · rw [if_neg (by simp [hr])]
    by_cases hb : method = "GET" ∧ 200 ≤ status ∧ status < 300
        ∧ baseContentType ct ∈ blockedContentTypes
    · rw [if_pos hb]; simp [hb]
    · rw [if_neg hb]
      simp only [iff_false, hb, iff_false_intro hb]
      match cl with
      | none => simp
      | some s =>
        by_cases hs : s = ""
        · simp [hs]
        · simp only [if_neg hs]
          match parseIntJS s with
          | none => simp
          | some size =>
            by_cases hgt : size > fileSize
            · simp [hgt]
            · simp [hgt]
  · intro hb
    rw [if_neg (by simp [hr]), if_neg hb]
    match cl with
    | none => simp
    | some s =>
      by_cases hs : s = ""
      · simp [hs]
      · simp only [if_neg hs]
        match parseIntJS s with
        | none => simp
        | some size =>
          by_cases hgt : size > fileSize
          · simp [hgt]
          · simp [hgt]

/-- An upstream response, as far as the redirect walk observes it. -/
structure UpResp where
  status : Nat
  location : Option String
  deriving Repr, DecidableEq

/-- Result of the manual redirect walk of `proxyGitHubRequest`. -/
inductive WalkOut where
  | tooManyRedirects
  | finalAt (url : String) (r : UpResp)
  deriving Repr, DecidableEq

/-- The manual redirect walk of `proxyGitHubRequest` (src/routes/github.js,
lines 89-114): `MAX_REDIRECTS = 20`, the guard `redirectCount > 20` answers
508 before any fetch, a 3xx response with a nonempty Location re-dispatches
with the counter incremented. `f` maps a URL to its upstream response; the
returned list collects the URLs actually fetched. The JS recursion carries
no structural bound, so the embedding adds explicit fuel and models
exhaustion as `none`. -/
def redirectWalk (f : String → UpResp) : Nat → String → Nat → Option (WalkOut × List String)
  | 0, _, _ => none
  | fuel + 1, url, redirectCount =>
    if redirectCount > 20 then some (.tooManyRedirects, [])
    else
      let r := f url
      if isRedirect r.status r.location then
        match redirectWalk f fuel (r.location.getD "") (redirectCount + 1) with
        | some (o, us) => some (o, url :: us)
        | none => none
      else some (.finalAt url r, [url])

/-- Totality and the fetch bound of the redirect walk, for any fuel above
the remaining budget. -/
theorem redirectWalk_total (f : String → UpResp) :
    ∀ fuel redirectCount url, 21 - redirectCount < fuel →
    ∃ o us, redirectWalk f fuel url redirectCount = some (o, us)
      ∧ us.length ≤ 21 - redirectCount
      ∧ (o = WalkOut.tooManyRedirects → us.length = 21 - redirectCount) := by
  intro fuel
  induction fuel with
  | zero => intro rc url h; omega
  | succ n ih =>
    intro rc url h
    by_cases hrc : rc > 20
    · refine ⟨.tooManyRedirects, [], ?_, by simp, fun _ => by simp; omega⟩
      unfold redirectWalk
      rw [if_pos hrc]
    · by_cases hred : isRedirect (f url).status (f url).location = true
      · obtain ⟨o, us, heq, hlen, himp⟩ :=
          ih (rc + 1) ((f url).location.getD "") (by omega)
        refine ⟨o, url :: us, ?_, by simp; omega, fun ho => by simp [himp ho]; omega⟩
        unfold redirectWalk
        rw [if_neg hrc]
        simp only [hred, if_true, heq]
      · refine ⟨.finalAt url (f url), [url], ?_, by simp; omega, fun ho => by cases ho⟩
        unfold redirectWalk
        rw [if_neg hrc]
        simp [hred]

/-- C4: starting from hop counter 0 with fuel 22, the walk terminates: at
most 21 upstream fetches happen (so at most 20 redirects are followed), and
the 508 `tooManyRedirects` outcome occurs exactly when all 21 fetches were
spent, with no further fetch issued. -/
theorem redirect_walk_bounded (f : String → UpResp) (url : String) :
    ∃ o us, redirectWalk f 22 url 0 = some (o, us)
      ∧ us.length ≤ 21
      ∧ (o = WalkOut.tooManyRedirects → us.length = 21) := by
  have h := redirectWalk_total f 22 0 url (by omega)
  simpa using h

/-- Concrete instance of `redirect_walk_bounded` on an endlessly
redirecting upstream. -/
theorem redirect_walk_bounded_witness :
    ∃ o us, redirectWalk (fun _ => ⟨301, some "https://github.com/a/b"⟩) 22
        "https://github.com/a/b" 0 = some (o, us)
      ∧ us.length ≤ 21
      ∧ (o = WalkOut.tooManyRedirects → us.length = 21) :=
  redirect_walk_bounded (fun _ => ⟨301, some "https://github.com/a/b"⟩)
    "https://github.com/a/b"

/-- Concrete instance of `content_gate_amended` at a `POST` 404 response. -/
theorem content_gate_amended_witness :
    (isRedirect 404 none = true →
      gateDecision "POST" 404 none none (some "42") 2000000000
        = GateResult.followRedirect ((none : Option String).getD ""))
    ∧ (isRedirect 404 none = false →
        ((gateDecision "POST" 404 none none (some "42") 2000000000
            = GateResult.blockedType) ↔
          ("POST" = "GET" ∧ 200 ≤ 404 ∧ 404 < 300
            ∧ baseContentType none ∈ blockedContentTypes))
        ∧ (¬ ("POST" = "GET" ∧ 200 ≤ 404 ∧ 404 < 300
              ∧ baseContentType none ∈ blockedContentTypes) →
            ((gateDecision "POST" 404 none none (some "42") 2000000000
                = GateResult.tooLarge) ↔
              sizeExceeded (some "42") 2000000000 = true))) :=
  content_gate_amended "POST" 404 none none (some "42") 2000000000

end Proxy

namespace RateLimiter

/-- Per-normalized-IP rate state (the `record` object in `createRateLimiter`,
src/utils/httpClient.js lines 262-266). JS numbers (milliseconds, fractional
tokens) are modelled as rationals. -/
structure IPRecord where
  tokens : ℚ
  lastRefill : ℚ
  lastAccess : ℚ
  deriving Repr, DecidableEq

/-- The record created on a bucket miss (lines 262-266). -/
def freshRecord (requestLimit now : ℚ) : IPRecord := ⟨requestLimit, now, now⟩

/-- One admission step on an existing bucket (src/utils/httpClient.js,
lines 270-283): continuous refill
`tokens = min(requestLimit, tokens + (elapsed / periodMs) * requestLimit)`,
then either 429 without consuming (`tokens < 1`) or consume one token.
Returns `(admitted, updated record)`. -/
def admissionStep (requestLimit periodMs now : ℚ) (r : IPRecord) : Bool × IPRecord :=
  let elapsed := now - r.lastRefill
  let refillAmount := (elapsed / periodMs) * requestLimit
  let tokens1 := min requestLimit (r.tokens + refillAmount)
  if tokens1 < 1 then (false, ⟨tokens1, now, now⟩)
  else (true, ⟨tokens1 - 1, now, now⟩)

/-- C5: under `requestLimit ≥ 1`, a positive refill period, a monotone
clock, and in-range incoming tokens, every admission step leaves
`0 ≤ tokens ≤ requestLimit`; the refill follows the
`min(limit, tokens + elapsed·limit/period)` formula, a token is consumed
only when the refilled level is at least 1, and otherwise the request is
rejected without consuming. -/
theorem admission_step_invariant (requestLimit periodMs now : ℚ) (r : IPRecord)
    (hN : 1 ≤ requestLimit) (hP : 0 < periodMs) (hMono : r.lastRefill ≤ now)
    (h0 : 0 ≤ r.tokens) (_h1 : r.tokens ≤ requestLimit) :
    0 ≤ (admissionStep requestLimit periodMs now r).2.tokens
    ∧ (admissionStep requestLimit periodMs now r).2.tokens ≤ requestLimit
    ∧ ((admissionStep requestLimit periodMs now r).1 = false →
        (admissionStep requestLimit periodMs now r).2.tokens
          = min requestLimit (r.tokens + ((now - r.lastRefill) / periodMs) * requestLimit)
        ∧ (admissionStep requestLimit periodMs now r).2.tokens < 1)
    ∧ ((admissionStep requestLimit periodMs now r).1 = true →
        (admissionStep requestLimit periodMs now r).2.tokens
          = min requestLimit (r.tokens + ((now - r.lastRefill) / periodMs) * requestLimit) - 1
        ∧ 1 ≤ min requestLimit (r.tokens + ((now - r.lastRefill) / periodMs) * requestLimit)) := by
  have hrefill : 0 ≤ ((now - r.lastRefill) / periodMs) * requestLimit := by
    apply mul_nonneg
    · exact div_nonneg (by linarith) (le_of_lt hP)
    · linarith
  have hlow : 0 ≤ min requestLimit (r.tokens + ((now - r.lastRefill) / periodMs) * requestLimit) := by
    apply le_min <;> linarith
  have hhigh : min requestLimit (r.tokens + ((now - r.lastRefill) / periodMs) * requestLimit)
      ≤ requestLimit := min_le_left _ _
  unfold admissionStep
  by_cases hlt : min requestLimit (r.tokens + ((now - r.lastRefill) / periodMs) * requestLimit) < 1
  · rw [if_pos hlt]
    exact ⟨hlow, hhigh, fun _ => ⟨rfl, hlt⟩, fun hc => by simp at hc⟩
  · rw [if_neg hlt]
    push_neg at hlt
    have g1 : (0 : ℚ) ≤ min requestLimit
        (r.tokens + ((now - r.lastRefill) / periodMs) * requestLimit) - 1 := by linarith
    have g2 : min requestLimit
        (r.tokens + ((now - r.lastRefill) / periodMs) * requestLimit) - 1
          ≤ requestLimit := by linarith
    exact ⟨g1, g2, fun hc => by simp at hc, fun _ => ⟨rfl, hlt⟩⟩

/-- Concrete instance of `admission_step_invariant`: limit 2, one-hour
period, a bucket holding half a token. -/
theorem admission_step_invariant_witness :
    0 ≤ (admissionStep 2 3600000 1000 ⟨1/2, 0, 0⟩).2.tokens
    ∧ (admissionStep 2 3600000 1000 ⟨1/2, 0, 0⟩).2.tokens ≤ 2
    ∧ ((admissionStep 2 3600000 1000 ⟨1/2, 0, 0⟩).1 = false →
        (admissionStep 2 3600000 1000 ⟨1/2, 0, 0⟩).2.tokens
          = min 2 ((1/2 : ℚ) + ((1000 - 0) / 3600000) * 2)
        ∧ (admissionStep 2 3600000 1000 ⟨1/2, 0, 0⟩).2.tokens < 1)
    ∧ ((admissionStep 2 3600000 1000 ⟨1/2, 0, 0⟩).1 = true →
        (admissionStep 2 3600000 1000 ⟨1/2, 0, 0⟩).2.tokens
          = min 2 ((1/2 : ℚ) + ((1000 - 0) / 3600000) * 2) - 1
        ∧ 1 ≤ min 2 ((1/2 : ℚ) + ((1000 - 0) / 3600000) * 2)) :=
  admission_step_invariant 2 3600000 1000 ⟨1/2, 0, 0⟩
    (by norm_num) (by norm_num) (by norm_num) (by norm_num) (by norm_num)

end RateLimiter

namespace CacheMap

/-- A cache entry (src/utils/cache.js line 42-45): value plus absolute
expiry in milliseconds. -/
structure Entry (α : Type) where
  value : α
  expiresAt : Nat
  deriving Repr, DecidableEq

/-- The JS `Map` backing the cache: insertion-ordered key/entry pairs with
unique keys. -/
abbrev MapData (α : Type) := List (String × Entry α)

/-- JS `Map.prototype.set`: overwrite in place when the key exists
(preserving its position), otherwise append at the end. -/
def mapSet {α : Type} (k : String) (e : Entry α) : MapData α → MapData α
  | [] => [(k, e)]
  | (k', e') :: rest => if k' = k then (k, e) :: rest else (k', e') :: mapSet k e rest

/-- JS `Map.prototype.delete`. -/
def mapDelete {α : Type} (k : String) : MapData α → MapData α
  | [] => []
  | (k', e') :: rest => if k' = k then rest else (k', e') :: mapDelete k rest

/-- JS `Map.prototype.get`. -/
def mapLookup {α : Type} (k : String) (d : MapData α) : Option (Entry α) :=
  (d.find? (fun kv => kv.1 = k)).map (fun kv => kv.2)

/-- The `Cache` class (src/utils/cache.js). `Date.now()` is passed in
explicitly as `now`. -/
structure Cache (α : Type) where
  data : MapData α
  maxSize : Nat
  defaultTTL : Nat
  deriving Repr, DecidableEq

/-- `cleanup()` (lines 51-58): drop every expired entry (deleting while
iterating a JS Map visits each entry once, in order: a filter). -/
def cleanup {α : Type} (now : Nat) (d : MapData α) : MapData α :=
  d.filter (fun kv => ¬ (now > kv.2.expiresAt))

/-- Lines 32-35 of `set`: when at capacity, purge expired entries. -/
def purgeIfFull {α : Type} (now maxSize : Nat) (d : MapData α) : MapData α :=
  if d.length ≥ maxSize then cleanup now d else d

/-- Lines 36-40 of `set`: when still at capacity, delete the first key
(`this.data.keys().next().value`; on an empty map this is `undefined` and
the delete is a no-op). -/
def evictIfFull {α : Type} (maxSize : Nat) (d : MapData α) : MapData α :=
  if d.length ≥ maxSize then
    match d with
    | [] => d
    | (k0, _) :: _ => mapDelete k0 d
  else d

/-- `set(key, value, ttl)` (lines 31-46). -/
def cacheSet {α : Type} (now : Nat) (k : String) (v : α) (ttl : Nat) (c : Cache α) :
    Cache α :=
  { c with
    data := (mapSet k ⟨v, now + ttl⟩ (evictIfFull c.maxSize (purgeIfFull now c.maxSize c.data))) }

/-- `get(key)` (lines 16-26): a present-but-expired entry is deleted and
reported as a miss. -/
def cacheGet {α : Type} (now : Nat) (k : String) (c : Cache α) : Option α × Cache α :=
  match mapLookup k c.data with
  | none => (none, c)
  | some e =>
    if now > e.expiresAt then (none, { c with data := mapDelete k c.data })
    else (some e.value, c)

/-- `delete(key)` (lines 63-65). -/
def cacheDelete {α : Type} (k : String) (c : Cache α) : Cache α :=
  { c with data := mapDelete k c.data }

/-- `clear()` (lines 70-72). -/
def cacheClear {α : Type} (c : Cache α) : Cache α := { c with data := [] }

/-- One cache operation of the public interface. -/
inductive COp (α : Type) where
  | get (now : Nat) (k : String)
  | set (now : Nat) (k : String) (v : α) (ttl : Nat)
  | del (k : String)
  | clear

/-- Apply one operation. -/
def applyOp {α : Type} (c : Cache α) : COp α → Cache α
  | .get now k => (cacheGet now k c).2
  | .set now k v ttl => cacheSet now k v ttl c
  | .del k => cacheDelete k c
  | .clear => cacheClear c

/-- Run a sequence of operations. -/
def runOps {α : Type} (c : Cache α) (ops : List (COp α)) : Cache α :=
  ops.foldl applyOp c

/-- `new Cache(maxSize, defaultTTL)` (lines 7-11). -/
def emptyCache (α : Type) (maxSize defaultTTL : Nat) : Cache α :=
  ⟨[], maxSize, defaultTTL⟩

theorem mapSet_length_le {α : Type} (k : String) (e : Entry α) :
    ∀ d : MapData α, (mapSet k e d).length ≤ d.length + 1 := by
  intro d
  induction d with
  | nil => simp [mapSet]
  | cons kv rest ih =>
    obtain ⟨k', e'⟩ := kv
    by_cases h : k' = k <;> simp [mapSet, h] <;> omega

theorem mapSet_length_of_mem {α : Type} (k : String) (e : Entry α) :
    ∀ d : MapData α, k ∈ d.map Prod.fst → (mapSet k e d).length = d.length := by
  intro d
  induction d with
  | nil => simp
  | cons kv rest ih =>
    obtain ⟨k', e'⟩ := kv
    intro hmem
    by_cases h : k' = k
    · simp [mapSet, h]
    · have : k ∈ rest.map Prod.fst := by
        simp only [List.map_cons, List.mem_cons] at hmem
        rcases hmem with h1 | h1
        · exact absurd h1.symm h
        · exact h1
      simp [mapSet, h, ih this]

theorem mapDelete_length_le {α : Type} (k : String) :
    ∀ d : MapData α, (mapDelete k d).length ≤ d.length := by
  intro d
  induction d with
  | nil => simp [mapDelete]
  | cons kv rest ih =>
    obtain ⟨k', e'⟩ := kv
    by_cases h : k' = k <;> simp [mapDelete, h] <;> omega

theorem mapLookup_mapSet_self {α : Type} (k : String) (e : Entry α) :
    ∀ d : MapData α, mapLookup k (mapSet k e d) = some e := by
  intro d
  induction d with
  | nil => simp [mapSet, mapLookup]
  | cons kv rest ih =>
    obtain ⟨k', e'⟩ := kv
    by_cases h : k' = k
    · simp [mapSet, h, mapLookup]
    · simp only [mapSet, if_neg h]
      simp only [mapLookup, List.find?] at ih ⊢
      rw [show (decide (k' = k)) = false from decide_eq_false h]
      exact ih

theorem mapLookup_mapSet_ne {α : Type} (k j : String) (e : Entry α) (hne : j ≠ k) :
    ∀ d : MapData α, mapLookup j (mapSet k e d) = mapLookup j d := by
  intro d
  induction d with
  | nil => simp [mapSet, mapLookup, List.find?, decide_eq_false (Ne.symm hne)]
  | cons kv rest ih =>
    obtain ⟨k', e'⟩ := kv
    by_cases h : k' = k
    · subst h
      simp [mapSet, mapLookup, List.find?, decide_eq_false (Ne.symm hne)]
    · simp only [mapSet, if_neg h]
      simp only [mapLookup, List.find?] at ih ⊢
      cases hkj : decide (k' = j) <;> simp [hkj, ih]

theorem mapLookup_eq_none_of_not_mem {α : Type} (k : String) :
    ∀ d : MapData α, k ∉ d.map Prod.fst → mapLookup k d = none := by
  intro d
  induction d with
  | nil => intro _; rfl
  | cons kv rest ih =>
    obtain ⟨k', e'⟩ := kv
    intro hmem
    simp only [List.map_cons, List.mem_cons, not_or] at hmem
    simp only [mapLookup, List.find?]
    rw [decide_eq_false (fun h => hmem.1 h.symm)]
    exact ih hmem.2

/-- `cacheSet` in terms of its pipeline, definitionally. -/
theorem cacheSet_data {α : Type} (now : Nat) (k : String) (v : α) (ttl : Nat)
    (c : Cache α) :
    (cacheSet now k v ttl c).data
      = mapSet k ⟨v, now + ttl⟩ (evictIfFull c.maxSize (purgeIfFull now c.maxSize c.data)) :=
  rfl

theorem purgeIfFull_length_le {α : Type} (now maxSize : Nat) (d : MapData α) :
    (purgeIfFull now maxSize d).length ≤ d.length := by
  unfold purgeIfFull
  by_cases h : d.length ≥ maxSize
  · rw [if_pos h]
    exact List.length_filter_le _ _
  · rw [if_neg h]

theorem evictIfFull_length {α : Type} (maxSize : Nat) (d : MapData α)
    (hle : d.length ≤ maxSize) (hmax : 1 ≤ maxSize) :
    (evictIfFull maxSize d).length + 1 ≤ maxSize := by
  unfold evictIfFull
  by_cases h : d.length ≥ maxSize
  · rw [if_pos h]
    rcases d with _ | ⟨⟨k0, e0⟩, rest⟩
    · simp at h
      omega
    · show (mapDelete k0 ((k0, e0) :: rest)).length + 1 ≤ maxSize
      have hdel : mapDelete k0 ((k0, e0) :: rest) = rest := by simp [mapDelete]
      rw [hdel]
      simp only [List.length_cons] at hle
      omega
  · rw [if_neg h]
    omega

/-- One `set` preserves the capacity bound. -/
theorem cacheSet_size {α : Type} (now : Nat) (k : String) (v : α) (ttl : Nat)
    (c : Cache α) (hmax : 1 ≤ c.maxSize) (hinv : c.data.length ≤ c.maxSize) :
    (cacheSet now k v ttl c).data.length ≤ c.maxSize := by
  have hp : (purgeIfFull now c.maxSize c.data).length ≤ c.maxSize :=
    le_trans (purgeIfFull_length_le now c.maxSize c.data) hinv
  have he := evictIfFull_length c.maxSize (purgeIfFull now c.maxSize c.data) hp hmax
  have hs := mapSet_length_le k ⟨v, now + ttl⟩
    (evictIfFull c.maxSize (purgeIfFull now c.maxSize c.data))
  rw [cacheSet_data]
  omega

/-- Every operation preserves the capacity bound and the configured
capacity. -/
theorem applyOp_size {α : Type} (c : Cache α) (op : COp α) (hmax : 1 ≤ c.maxSize)
    (hinv : c.data.length ≤ c.maxSize) :
    (applyOp c op).data.length ≤ c.maxSize ∧ (applyOp c op).maxSize = c.maxSize := by
  cases op with
  | get now k =>
    have h1 : (applyOp c (COp.get now k)).data.length ≤ c.maxSize := by
      simp only [applyOp, cacheGet]
      split
      · exact hinv
      · split
        · exact le_trans (mapDelete_length_le k c.data) hinv
        · exact hinv
    have h2 : (applyOp c (COp.get now k)).maxSize = c.maxSize := by
      simp only [applyOp, cacheGet]
      split
      · rfl
      · split
        · rfl
        · rfl
    exact ⟨h1, h2⟩
  | set now k v ttl => exact ⟨cacheSet_size now k v ttl c hmax hinv, rfl⟩
  | del k => exact ⟨le_trans (mapDelete_length_le k c.data) hinv, rfl⟩
  | clear => exact ⟨by simp [applyOp, cacheClear], rfl⟩

/-- Any operation sequence preserves capacity and bound. -/
theorem runOps_size {α : Type} :
    ∀ (ops : List (COp α)) (c : Cache α), 1 ≤ c.maxSize → c.data.length ≤ c.maxSize →
    (runOps c ops).maxSize = c.maxSize ∧ (runOps c ops).data.length ≤ c.maxSize := by
  intro ops
  induction ops with
  | nil => intro c _ hinv; exact ⟨rfl, hinv⟩
  | cons op rest ih =>
    intro c hmax hinv
    have hstep := applyOp_size c op hmax hinv
    have hrec := ih (applyOp c op) (hstep.2 ▸ hmax) (hstep.2 ▸ hstep.1)
    refine ⟨?_, ?_⟩
    · show (runOps (applyOp c op) rest).maxSize = c.maxSize
      rw [hrec.1, hstep.2]
    · show (runOps (applyOp c op) rest).data.length ≤ c.maxSize
      rw [← hstep.2]
      exact hrec.2

/-- C6: starting from the empty cache with capacity `maxSize ≥ 1`, no
sequence of get/set/delete/clear operations ever leaves more than
`maxSize` entries; and a `set` on a full cache with no expired entry
purges nothing, evicts the earliest-inserted entry (FIFO) and then
inserts. -/
theorem cache_capacity_invariant (α : Type) (maxSize defaultTTL : Nat)
    (hmax : 1 ≤ maxSize) (ops : List (COp α)) :
    (runOps (emptyCache α maxSize defaultTTL) ops).data.length ≤ maxSize
    ∧ (∀ (c : Cache α) (now : Nat) (k : String) (v : α) (ttl : Nat),
        c.data.length = c.maxSize →
        (∀ kv ∈ c.data, ¬ (now > kv.2.expiresAt)) →
        (cacheSet now k v ttl c).data = mapSet k ⟨v, now + ttl⟩ c.data.tail) := by
  constructor
  · exact (runOps_size ops (emptyCache α maxSize defaultTTL) hmax (by simp [emptyCache])).2
  · intro c now k v ttl hlen hexp
    have hclean : cleanup now c.data = c.data := by
      unfold cleanup
      rw [List.filter_eq_self]
      intro a ha
      simpa using hexp a ha
    unfold cacheSet purgeIfFull evictIfFull
    rw [if_pos (ge_of_eq hlen), hclean, if_pos (ge_of_eq hlen)]
    rcases hc : c.data with _ | ⟨⟨k0, e0⟩, rest⟩
    · rfl
    · simp [mapDelete]

/-- Concrete instance of `cache_capacity_invariant`: capacity 2, three
inserts and a get. -/
theorem cache_capacity_invariant_witness :
    (runOps (emptyCache Nat 2 1000)
        [COp.set 0 "a" 1 10, COp.set 1 "b" 2 10, COp.set 2 "c" 3 10,
         COp.get 3 "b"]).data.length ≤ 2
    ∧ (∀ (c : Cache Nat) (now : Nat) (k : String) (v : Nat) (ttl : Nat),
        c.data.length = c.maxSize →
        (∀ kv ∈ c.data, ¬ (now > kv.2.expiresAt)) →
        (cacheSet now k v ttl c).data = mapSet k ⟨v, now + ttl⟩ c.data.tail) :=
  cache_capacity_invariant Nat 2 1000 (by decide)
    [COp.set 0 "a" 1 10, COp.set 1 "b" 2 10, COp.set 2 "c" 3 10, COp.get 3 "b"]

/-- C10 (implicit frame/effect claim): on a full, unexpired cache a `set`
evicts the oldest entry even when the key is already present — overwriting
an existing key at capacity removes the unrelated oldest entry and shrinks
the cache by one — while a `set` below capacity leaves every other key's
entry unchanged. -/
theorem cache_set_overwrite_frame (α : Type) :
    (∀ (c : Cache α) (now : Nat) (k : String) (v : α) (ttl : Nat)
        (k0 : String) (e0 : Entry α) (rest : MapData α),
      c.data = (k0, e0) :: rest →
      c.data.length = c.maxSize →
      (c.data.map Prod.fst).Nodup →
      (∀ kv ∈ c.data, ¬ (now > kv.2.expiresAt)) →
      k ∈ rest.map Prod.fst → k ≠ k0 →
      (cacheSet now k v ttl c).data.length = c.maxSize - 1
      ∧ mapLookup k0 (cacheSet now k v ttl c).data = none
      ∧ mapLookup k (cacheSet now k v ttl c).data = some ⟨v, now + ttl⟩)
    ∧ (∀ (c : Cache α) (now : Nat) (k : String) (v : α) (ttl : Nat) (j : String),
      c.data.length < c.maxSize → j ≠ k →
      mapLookup j (cacheSet now k v ttl c).data = mapLookup j c.data
      ∧ mapLookup k (cacheSet now k v ttl c).data = some ⟨v, now + ttl⟩) := by
  constructor
  · intro c now k v ttl k0 e0 rest hc hlen hnodup hexp hkmem hkne
    have hclean : cleanup now c.data = c.data := by
      unfold cleanup
      rw [List.filter_eq_self]
      intro a ha
      simpa using hexp a ha
    have hdata : (cacheSet now k v ttl c).data = mapSet k ⟨v, now + ttl⟩ rest := by
      unfold cacheSet purgeIfFull evictIfFull
      rw [if_pos (ge_of_eq hlen), hclean, if_pos (ge_of_eq hlen), hc]
      simp [mapDelete]
    have hk0notin : k0 ∉ rest.map Prod.fst := by
      rw [hc] at hnodup
      simp only [List.map_cons] at hnodup
      exact (List.nodup_cons.mp hnodup).1
    refine ⟨?_, ?_, ?_⟩
    · rw [hdata, mapSet_length_of_mem k ⟨v, now + ttl⟩ rest hkmem]
      rw [hc] at hlen
      simp only [List.length_cons] at hlen
      omega
    · rw [hdata, mapLookup_mapSet_ne k k0 ⟨v, now + ttl⟩ (Ne.symm hkne)]
      exact mapLookup_eq_none_of_not_mem k0 rest hk0notin
    · rw [hdata]
      exact mapLookup_mapSet_self k ⟨v, now + ttl⟩ rest
  · intro c now k v ttl j hlt hne
    have hpurge : purgeIfFull now c.maxSize c.data = c.data := by
      unfold purgeIfFull
      rw [if_neg (by omega)]
    have hdata : (cacheSet now k v ttl c).data = mapSet k ⟨v, now + ttl⟩ c.data := by
      rw [cacheSet_data, hpurge]
      unfold evictIfFull
      rw [if_neg (by omega)]
    rw [hdata]
    exact ⟨mapLookup_mapSet_ne k j ⟨v, now + ttl⟩ hne c.data,
      mapLookup_mapSet_self k ⟨v, now + ttl⟩ c.data⟩

/-- Concrete instance of `cache_set_overwrite_frame`: overwriting `"k"` on
a full 3-entry cache evicts `"a"`; a set below capacity preserves `"j"`. -/
theorem cache_set_overwrite_frame_witness :
    ((cacheSet 0 "k" 9 50 (⟨[("a", ⟨1, 100⟩), ("b", ⟨2, 100⟩), ("k", ⟨3, 100⟩)], 3, 5⟩ :
        Cache Nat)).data.length = 3 - 1
      ∧ mapLookup "a" (cacheSet 0 "k" 9 50 (⟨[("a", ⟨1, 100⟩), ("b", ⟨2, 100⟩),
          ("k", ⟨3, 100⟩)], 3, 5⟩ : Cache Nat)).data = none
      ∧ mapLookup "k" (cacheSet 0 "k" 9 50 (⟨[("a", ⟨1, 100⟩), ("b", ⟨2, 100⟩),
          ("k", ⟨3, 100⟩)], 3, 5⟩ : Cache Nat)).data = some ⟨9, 0 + 50⟩)
    ∧ (mapLookup "j" (cacheSet 0 "k" 9 50 (⟨[("j", ⟨1, 100⟩)], 3, 5⟩ :
          Cache Nat)).data = mapLookup "j" [("j", (⟨1, 100⟩ : Entry Nat))]
      ∧ mapLookup "k" (cacheSet 0 "k" 9 50 (⟨[("j", ⟨1, 100⟩)], 3, 5⟩ :
          Cache Nat)).data = some ⟨9, 0 + 50⟩) :=
  ⟨(cache_set_overwrite_frame Nat).1
      (⟨[("a", ⟨1, 100⟩), ("b", ⟨2, 100⟩), ("k", ⟨3, 100⟩)], 3, 5⟩ : Cache Nat)
      0 "k" 9 50 "a" ⟨1, 100⟩ [("b", ⟨2, 100⟩), ("k", ⟨3, 100⟩)]
      rfl (by decide) (by decide) (by decide) (by decide) (by decide),
    (cache_set_overwrite_frame Nat).2
      (⟨[("j", ⟨1, 100⟩)], 3, 5⟩ : Cache Nat) 0 "k" 9 50 "j"
      (by decide) (by decide)⟩

end CacheMap

namespace ScriptRewrite

open Proxy

/-- The JS regex whitespace class `\s` (space separators, tab, line
terminators, NBSP, BOM, and the U+2000 range). -/
def jsWhitespace (c : Char) : Bool :=
  c = ' ' || c = '\t' || c = '\n' || c = '\r' ||
  c = Char.ofNat 0x0b || c = Char.ofNat 0x0c || c = Char.ofNat 0xa0 ||
  c = Char.ofNat 0x1680 || (Char.ofNat 0x2000 ≤ c && c ≤ Char.ofNat 0x200a) ||
  c = Char.ofNat 0x2028 || c = Char.ofNat 0x2029 || c = Char.ofNat 0x202f ||
  c = Char.ofNat 0x205f || c = Char.ofNat 0x3000 || c = Char.ofNat 0xfeff

/-- The character class `[^\s"']` of the source regexes
(src/routes/github.js lines 165-166). -/
def codeUrlChar (c : Char) : Bool := !(jsWhitespace c || c = '"' || c = '\'')

/-- The character class `\S` used by the claim instead. -/
def specUrlChar (c : Char) : Bool := !(jsWhitespace c)

/-- Try to match `https?://<domain>/<p>+` at the head of `l` (the greedy
`s?` first): on success return the matched text and the remainder. -/
def tryMatchUrl (domain : Str) (p : Char → Bool) (l : Str) : Option (Str × Str) :=
  if ("https://".data ++ domain ++ ['/']).isPrefixOf l then
    if (l.drop ("https://".data ++ domain ++ ['/']).length).takeWhile p = [] then none
    else some (("https://".data ++ domain ++ ['/'])
        ++ (l.drop ("https://".data ++ domain ++ ['/']).length).takeWhile p,
      (l.drop ("https://".data ++ domain ++ ['/']).length).dropWhile p)
  else if ("http://".data ++ domain ++ ['/']).isPrefixOf l then
    if (l.drop ("http://".data ++ domain ++ ['/']).length).takeWhile p = [] then none
    else some (("http://".data ++ domain ++ ['/'])
        ++ (l.drop ("http://".data ++ domain ++ ['/']).length).takeWhile p,
      (l.drop ("http://".data ++ domain ++ ['/']).length).dropWhile p)
  else none

/-- `body.replace(<global url regex>, match => host + "/" + match)`
(src/routes/github.js lines 169-171): scan left to right; each match emits
`host ++ "/" ++ match` and scanning resumes after it. Every step consumes
at least one character, so `fuel = l.length` suffices; exhausted fuel
returns the rest unchanged (unreachable under that call pattern). -/
def replaceUrlsAux (host domain : Str) (p : Char → Bool) : Nat → Str → Str
  | _, [] => []
  | 0, l => l
  | fuel + 1, c :: rest =>
    match tryMatchUrl domain p (c :: rest) with
    | some (m, after) => host ++ '/' :: (m ++ replaceUrlsAux host domain p fuel after)
    | none => c :: replaceUrlsAux host domain p fuel rest

/-- One global replace pass. -/
def replaceUrls (host domain : Str) (p : Char → Bool) (l : Str) : Str :=
  replaceUrlsAux host domain p l.length l

/-- `realHost` (src/routes/github.js lines 141-144): `X-Forwarded-Host` or
`Host`, prefixed with `https://` when no scheme is present.
`X-Forwarded-Proto` is never consulted. -/
def realHostOf (reqHs : Headers) : String :=
  let h := jsStrOr (reqHeader reqHs "x-forwarded-host") (jsStrOr (reqHeader reqHs "host") "")
  if "http://".data.isPrefixOf h.data ∨ "https://".data.isPrefixOf h.data then h
  else "https://" ++ h

/-- Lines 158-159: the whole lowercased URL (not just its path) must end
in `.sh` or `.ps1`. -/
def scriptTrigger (url : String) : Bool :=
  ".sh".data.isSuffixOf (asciiLower url).data || ".ps1".data.isSuffixOf (asciiLower url).data

/-- Lines 163-171: the two global replaces, applied in sequence
(`github.com` first, then `raw.githubusercontent.com`). -/
def rewriteScriptBody (host body : String) : String :=
  ⟨replaceUrls host.data "raw.githubusercontent.com".data codeUrlChar
    (replaceUrls host.data "github.com".data codeUrlChar body.data)⟩

/-- The script path of `proxyGitHubRequest`: `some` rewritten body when the
URL triggers the buffered rewrite, `none` when the body streams unchanged. -/
def scriptStep (reqHs : Headers) (url body : String) : Option String :=
  if scriptTrigger url then some (rewriteScriptBody (realHostOf reqHs) body) else none

/-- `delete responseHeaders['content-length']` (line 173); response header
object keys are the lowercase names from `response.headers.entries()`. -/
def deleteHeader (hs : Headers) (name : String) : Headers :=
  hs.filter (fun kv => ¬ (kv.1 = name))

/-- Modelled from the claim's words, for comparison: the URL's path — the
segment from the first `/` after the scheme and authority up to `?` or
`#`. -/
def specUrlPath (url : String) : String :=
  let rest :=
    if "https://".data.isPrefixOf url.data then url.data.drop 8
    else if "http://".data.isPrefixOf url.data then url.data.drop 7
    else url.data
  let afterHost := rest.dropWhile (fun c => c ≠ '/' && c ≠ '?' && c ≠ '#')
  match afterHost with
  | '/' :: _ => ⟨afterHost.takeWhile (fun c => c ≠ '?' && c ≠ '#')⟩
  | _ => ""

/-- Modelled from the claim's words: trigger on the URL's path ending
case-insensitively in `.sh` or `.ps1`. -/
def specScriptTrigger (url : String) : Bool :=
  ".sh".data.isSuffixOf (asciiLower (specUrlPath url)).data
    || ".ps1".data.isSuffixOf (asciiLower (specUrlPath url)).data

/-- Modelled from the claim's words: proxy base from `X-Forwarded-Host` or
`Host` plus `X-Forwarded-Proto` defaulting to `https`. -/
def specProxyBase (reqHs : Headers) : String :=
  schemeOf reqHs ++ "://" ++ proxyHostOf reqHs

/-- Modelled from the claim's words: rewrite with the `\S`-based classes. -/
def specRewriteScriptBody (base body : String) : String :=
  ⟨replaceUrls base.data "raw.githubusercontent.com".data specUrlChar
    (replaceUrls base.data "github.com".data specUrlChar body.data)⟩

/-- Modelled from the claim's words: the behavior C7 describes. -/
def specScriptStep (reqHs : Headers) (url body : String) : Option String :=
  if specScriptTrigger url then some (specRewriteScriptBody (specProxyBase reqHs) body)
  else none

/-- Both URL literals start with `h`, so no match can begin elsewhere. -/
theorem tryMatchUrl_none_of_head (domain : Str) (p : Char → Bool) (c : Char)
    (rest : Str) (hc : c ≠ 'h') : tryMatchUrl domain p (c :: rest) = none := by
  have h1 : (("https://".data ++ domain ++ ['/']).isPrefixOf (c :: rest)) = false := by
    show (('h' :: ("ttps://".data ++ domain ++ ['/'])).isPrefixOf (c :: rest)) = false
    simp only [List.isPrefixOf, Bool.and_eq_false_iff, beq_eq_false_iff_ne, ne_eq]
    exact Or.inl (fun h => hc h.symm)
  have h2 : (("http://".data ++ domain ++ ['/']).isPrefixOf (c :: rest)) = false := by
    show (('h' :: ("ttp://".data ++ domain ++ ['/'])).isPrefixOf (c :: rest)) = false
    simp only [List.isPrefixOf, Bool.and_eq_false_iff, beq_eq_false_iff_ne, ne_eq]
    exact Or.inl (fun h => hc h.symm)
  unfold tryMatchUrl
  rw [if_neg (by rw [h1]; exact Bool.false_ne_true),
    if_neg (by rw [h2]; exact Bool.false_ne_true)]

/-- A scan over a region without any match leaves it unchanged. -/
theorem replaceUrlsAux_no_match (host domain : Str) (p : Char → Bool) :
    ∀ (l : Str) (fuel : Nat),
    (∀ i, i < l.length → tryMatchUrl domain p (l.drop i) = none) →
    replaceUrlsAux host domain p fuel l = l := by
  intro l
  induction l with
  | nil =>
    intro fuel _
    cases fuel with
    | zero => rfl
    | succ n => rfl
  | cons c rest ih =>
    intro fuel hnm
    cases fuel with
    | zero => rfl
    | succ n =>
      have h0 : tryMatchUrl domain p (c :: rest) = none := by
        have := hnm 0 (by simp)
        simpa using this
      unfold replaceUrlsAux
      rw [h0]
      have hrec := ih n (fun i hi => by
        have := hnm (i + 1) (by simp; omega)
        simpa using this)
      rw [hrec]

/-- The `https` literal followed by a nonempty all-class run matches whole. -/
theorem tryMatchUrl_boundary (domain : Str) (p : Char → Bool) (w : Str)
    (hw : w ≠ []) (hwp : ∀ c ∈ w, p c = true) :
    tryMatchUrl domain p (("https://".data ++ domain ++ ['/']) ++ w)
      = some ((("https://".data ++ domain ++ ['/']) ++ w), []) := by
  have htake : w.takeWhile p = w := by
    rw [List.takeWhile_eq_self_iff] at *
    exact hwp
  have hdrop : w.dropWhile p = [] := by
    rw [List.dropWhile_eq_nil_iff]
    exact hwp
  unfold tryMatchUrl
  rw [if_pos (List.isPrefixOf_iff_prefix.mpr (List.prefix_append _ _))]
  rw [List.drop_left, htake, hdrop, if_neg hw]

/-- Scanning `pre ++ https://<domain>/<w>` with an `h`-free `pre` rewrites
exactly the URL occurrence. -/
theorem replaceUrlsAux_single (host domain : Str) (p : Char → Bool) (w : Str)
    (hw : w ≠ []) (hwp : ∀ c ∈ w, p c = true) :
    ∀ (pre : Str) (fuel : Nat), 'h' ∉ pre →
    (pre ++ (("https://".data ++ domain ++ ['/']) ++ w)).length ≤ fuel →
    replaceUrlsAux host domain p fuel (pre ++ (("https://".data ++ domain ++ ['/']) ++ w))
      = pre ++ (host ++ '/' :: (("https://".data ++ domain ++ ['/']) ++ w)) := by
  intro pre
  induction pre with
  | nil =>
    intro fuel _ hfuel
    have hne : (("https://".data ++ domain ++ ['/']) ++ w) ≠ [] := by simp
    cases fuel with
    | zero =>
      exfalso
      have hpos := List.length_pos.mpr hne
      rw [List.nil_append] at hfuel
      omega
    | succ n =>
      have hshape : (("https://".data ++ domain ++ ['/']) ++ w)
          = 'h' :: (("ttps://".data ++ domain ++ ['/']) ++ w) := rfl
      have hnilaux : replaceUrlsAux host domain p n [] = [] := by
        cases n with
        | zero => rfl
        | succ m => rfl
      simp only [List.nil_append]
      rw [hshape]
      unfold replaceUrlsAux
      rw [← hshape, tryMatchUrl_boundary domain p w hw hwp]
      show host ++ '/' :: ((("https://".data ++ domain ++ ['/']) ++ w)
          ++ replaceUrlsAux host domain p n [])
        = host ++ '/' :: (("https://".data ++ domain ++ ['/']) ++ w)
      rw [hnilaux, List.append_nil]
  | cons c pre' ih =>
    intro fuel hpre hfuel
    cases fuel with
    | zero =>
      exfalso
      simp only [List.cons_append, List.length_cons] at hfuel
      omega
    | succ n =>
      have hc : c ≠ 'h' := fun h => hpre (by rw [h]; exact List.mem_cons_self _ _)
      rw [List.cons_append]
      unfold replaceUrlsAux
      rw [tryMatchUrl_none_of_head domain p c _ hc]
      show c :: replaceUrlsAux host domain p n
            (pre' ++ (("https://".data ++ domain ++ ['/']) ++ w))
          = (c :: pre') ++ (host ++ '/' :: (("https://".data ++ domain ++ ['/']) ++ w))
      have hb : List.length (pre' ++ (("https://".data ++ domain ++ ['/']) ++ w)) ≤ n := by
        rw [List.cons_append, List.length_cons] at hfuel
        omega
      rw [ih n (fun h => hpre (List.mem_cons_of_mem c h)) hb]
      simp

/-- C7 (amended): the script rewrite triggers on the whole lowercased URL
ending in `.sh`/`.ps1` (not on the URL's path); each occurrence of
`https?://github\.com/[^\s"']+` (here: a single occurrence after an
`h`-free prefix, with no `raw.githubusercontent.com` match anywhere in the
result of the first pass) is rewritten to `<realHost>/<match>`; and the
`Content-Length` header is removed from the response headers. -/
theorem script_rewrite_amended :
    (∀ url : String, scriptTrigger url = true ↔
      (".sh".data.isSuffixOf (asciiLower url).data = true
        ∨ ".ps1".data.isSuffixOf (asciiLower url).data = true))
    ∧ (∀ (host pre w : Str),
        'h' ∉ pre → w ≠ [] → (∀ c ∈ w, codeUrlChar c = true) →
        (∀ i, i < (pre ++ (host ++ '/' ::
              (("https://".data ++ "github.com".data ++ ['/']) ++ w))).length →
          tryMatchUrl "raw.githubusercontent.com".data codeUrlChar
            ((pre ++ (host ++ '/' ::
              (("https://".data ++ "github.com".data ++ ['/']) ++ w))).drop i) = none) →
        rewriteScriptBody ⟨host⟩
            ⟨pre ++ (("https://".data ++ "github.com".data ++ ['/']) ++ w)⟩
          = ⟨pre ++ (host ++ '/' ::
              (("https://".data ++ "github.com".data ++ ['/']) ++ w))⟩)
    ∧ (∀ hs : Headers,
        (deleteHeader hs "content-length").find? (fun kv => kv.1 = "content-length")
          = none) := by
  refine ⟨?_, ?_, ?_⟩
  · intro url
    unfold scriptTrigger
    exact iff_of_eq (Bool.or_eq_true _ _)
  · intro host pre w hpre hw hwp hnoraw
    unfold rewriteScriptBody replaceUrls
    have h1 := replaceUrlsAux_single host "github.com".data codeUrlChar w hw hwp pre
      (⟨pre ++ (("https://".data ++ "github.com".data ++ ['/']) ++ w)⟩ : String).data.length
      hpre (le_refl _)
    rw [h1]
    apply congrArg
    exact replaceUrlsAux_no_match host "raw.githubusercontent.com".data codeUrlChar
      _ _ hnoraw
  · intro hs
    rw [List.find?_eq_none]
    intro kv hkv
    have h := (List.mem_filter.mp hkv).2
    simp only [decide_eq_true_eq] at h ⊢
    exact h

/-- Concrete instance of `script_rewrite_amended`: one GitHub URL inside a
small script body. -/
theorem script_rewrite_amended_witness :
    rewriteScriptBody ⟨"https://p.example".data⟩
        ⟨"x ".data ++ (("https://".data ++ "github.com".data ++ ['/']) ++ "a/b.zip".data)⟩
      = ⟨"x ".data ++ ("https://p.example".data ++ '/' ::
          (("https://".data ++ "github.com".data ++ ['/']) ++ "a/b.zip".data))⟩ :=
  script_rewrite_amended.2.1 "https://p.example".data "x ".data "a/b.zip".data
    (by decide) (by decide) (by decide) (by decide)

/-- C7 counterexample: (a) a URL whose path ends in `.sh` but whose full
URL ends in the query string does not trigger the rewrite although the
claim says it must; (b) on a triggering URL, the code's
`[^\s"']`/`https://`-prefix behavior differs from the claim's `\S` classes
and `X-Forwarded-Proto`-derived proxy base. -/
theorem script_rewrite_counterexample :
    scriptStep [("x-forwarded-proto", "http"), ("host", "p.example")]
        "https://raw.githubusercontent.com/a/b/m/i.sh?token=1" "x" = none
    ∧ specScriptStep [("x-forwarded-proto", "http"), ("host", "p.example")]
        "https://raw.githubusercontent.com/a/b/m/i.sh?token=1" "x" ≠ none
    ∧ scriptStep [("x-forwarded-proto", "http"), ("host", "p.example")]
        "https://raw.githubusercontent.com/a/b/m/i.sh" "a https://github.com/\"q"
      ≠ specScriptStep [("x-forwarded-proto", "http"), ("host", "p.example")]
        "https://raw.githubusercontent.com/a/b/m/i.sh" "a https://github.com/\"q" :=
  ⟨by decide, by decide, by decide⟩

end ScriptRewrite

namespace Cidr

open Proxy

/-- Split a character list at every occurrence of `sep` (JS
`String.prototype.split` with a single-character separator). -/
def splitOnChar (sep : Char) : Str → List Str
  | [] => [[]]
  | c :: cs =>
    if c = sep then [] :: splitOnChar sep cs
    else
      match splitOnChar sep cs with
      | [] => [[c]]
      | r :: rs => (c :: r) :: rs

/-- A hexadecimal digit character (`0-9`, `a-f`, `A-F`, by code point). -/
def isHexDigitChar (c : Char) : Bool :=
  (48 ≤ c.toNat && c.toNat ≤ 57) || (97 ≤ c.toNat && c.toNat ≤ 102)
    || (65 ≤ c.toNat && c.toNat ≤ 70)

/-- Numeric value of one hex digit character. -/
def hexDigitVal (c : Char) : Nat :=
  if c.toNat ≤ 57 then c.toNat - 48
  else if 97 ≤ c.toNat then c.toNat - 87 else c.toNat - 55

/-- Value of a big-endian list of hex digit characters. -/
def hexListVal (l : Str) : Nat := l.foldl (fun a c => a * 16 + hexDigitVal c) 0

/-- JS `parseInt(s, 16)`: skip whitespace, optional sign, then the maximal
leading run of hex digits; `none` models `NaN` (no digits). A leading
`0x` (which JS would also skip) is not modelled; no input here carries
one. -/
def parseHexJS (s : Str) : Option Int :=
  match s.dropWhile isJsSpace with
  | '-' :: rest =>
    if rest.takeWhile isHexDigitChar = [] then none
    else some (-(hexListVal (rest.takeWhile isHexDigitChar) : Int))
  | t =>
    if (if t.head? = some '+' then t.drop 1 else t).takeWhile isHexDigitChar = [] then none
    else some ((hexListVal ((if t.head? = some '+' then t.drop 1 else t).takeWhile
      isHexDigitChar) : Int))

/-- `(val >> 8) & 0xff` and `val & 0xff` on the JS number `val`, with
`undefined`/`NaN` (`none`) coercing to 0 under bitwise ToInt32. Values are
first wrapped to 32 bits, as JS bitwise operators do. -/
def jsHiByte (v : Option Int) : Nat :=
  match v with
  | none => 0
  | some n => (((n % (2 ^ 32)).toNat) >>> 8) % 256

/-- Low byte, same conventions. -/
def jsLoByte (v : Option Int) : Nat :=
  match v with
  | none => 0
  | some n => ((n % (2 ^ 32)).toNat) % 256

/-- The `::` expansion of `parseIPv6` (src/utils/httpClient.js lines
96-105): at the first empty part, pad with `'0'` groups up to 8.
`Array(missing)` with a negative count throws a `RangeError`, modelled as
`none`. -/
def expandParts (parts : List Str) : Option (List Str) :=
  match parts.findIdx? (fun p => p.isEmpty) with
  | none => some parts
  | some emptyIdx =>
    if ((parts.take emptyIdx).filter (fun p => ¬ p.isEmpty)).length
        + ((parts.drop (emptyIdx + 1)).filter (fun p => ¬ p.isEmpty)).length ≤ 8 then
      some ((parts.take emptyIdx).filter (fun p => ¬ p.isEmpty)
        ++ List.replicate (8 - ((parts.take emptyIdx).filter (fun p => ¬ p.isEmpty)).length
            - ((parts.drop (emptyIdx + 1)).filter (fun p => ¬ p.isEmpty)).length) ['0']
        ++ (parts.drop (emptyIdx + 1)).filter (fun p => ¬ p.isEmpty))
    else none

/-- The group read by the byte loop: `parts[i] || '0'` (an absent or empty
part becomes `'0'`). -/
def groupStr (parts : List Str) (i : Nat) : Str :=
  if (parts.getD i []).isEmpty then ['0'] else parts.getD i []

/-- The 16 bytes produced by the loop of `parseIPv6` (lines 107-111). -/
def bytesOfParts (parts : List Str) : List Nat :=
  ((List.range 8).map (fun i =>
    [jsHiByte (parseHexJS (groupStr parts i)), jsLoByte (parseHexJS (groupStr parts i))])).join

/-- `parseIPv6` (src/utils/httpClient.js lines 94-114). -/
def parseIPv6 (ip : Str) : Option (List Nat) :=
  (expandParts (splitOnChar ':' ip)).map bytesOfParts

/-- JS `Uint8Array` element coercion: ToUint8 (`NaN` to 0, integers mod
256 with wraparound). -/
def toUint8 (v : Option Int) : Nat :=
  match v with
  | none => 0
  | some n => (n % 256).toNat

/-- `parseIPv4` (src/utils/httpClient.js lines 86-89): split on `.`,
`parseInt` each part, store in a `Uint8Array` of that length. -/
def parseIPv4 (ip : Str) : List Nat :=
  (splitOnChar '.' ip).map (fun p => toUint8 (parseIntJS ⟨p⟩))

/-- Result of `parseCIDR`. -/
structure ParsedCIDR where
  bytes : List Nat
  prefixLen : Option Int
  isV6 : Bool
  deriving Repr, DecidableEq

/-- `parseCIDR` (src/utils/httpClient.js lines 67-81); `none` propagates
the `RangeError` of `parseIPv6`. `[ip, prefix] = cidr.split('/')`
destructures the first two parts; a missing prefix part parses to `NaN`. -/
def parseCIDR (cidr : Str) : Option ParsedCIDR :=
  if '/' ∈ cidr then
    if ':' ∈ (splitOnChar '/' cidr).getD 0 [] then
      (parseIPv6 ((splitOnChar '/' cidr).getD 0 [])).map
        (fun b => ⟨b, parseIntJS ⟨(splitOnChar '/' cidr).getD 1 []⟩, true⟩)
    else
      some ⟨parseIPv4 ((splitOnChar '/' cidr).getD 0 []),
        parseIntJS ⟨(splitOnChar '/' cidr).getD 1 []⟩, false⟩
  else
    if ':' ∈ cidr then (parseIPv6 cidr).map (fun b => ⟨b, some 128, true⟩)
    else some ⟨parseIPv4 cidr, some 32, false⟩

/-- The byte-comparison loop of `isIPInCIDR` (lines 132-141):
`bitsInThisByte = min(8, max(0, prefix - 8i))` (`NaN` propagates), break on
exactly 0, mask `(0xff << (8 - bits)) & 0xff` (a `NaN` shift count becomes
0), indexing past the end reads `undefined` which `&` coerces to 0. -/
def cidrLoop (ipB cB : List Nat) (pfx : Option Int) : Nat → Nat → Bool
  | _, 0 => true
  | i, n + 1 =>
    if pfx.map (fun p => min 8 (max 0 (p - 8 * (i : Int)))) = some 0 then true
    else
      if (ipB.getD i 0) &&& (match pfx.map (fun p => min 8 (max 0 (p - 8 * (i : Int)))) with
            | none => 0xff
            | some b => (0xff <<< ((8 - b).toNat)) % 256)
          ≠ (cB.getD i 0) &&& (match pfx.map (fun p => min 8 (max 0 (p - 8 * (i : Int)))) with
            | none => 0xff
            | some b => (0xff <<< ((8 - b).toNat)) % 256) then false
      else cidrLoop ipB cB pfx (i + 1) n

/-- `isIPInCIDR` (src/utils/httpClient.js lines 119-146); the `try/catch`
maps a `RangeError` (`none`) to `false`. -/
def isIPInCIDR (ip cidr : Str) : Bool :=
  match (if ':' ∈ ip then parseIPv6 ip else some (parseIPv4 ip)) with
  | none => false
  | some ipBytes =>
    match parseCIDR cidr with
    | none => false
    | some cp =>
      if (':' ∈ ip) ≠ cp.isV6 then false
      else cidrLoop ipBytes cp.bytes cp.prefixLen 0 cp.bytes.length

/-- C9: evaluation of the code at the failing input. The ip `"abc"` is not
a syntactically valid address, yet the membership test against
`0.0.0.0/32` answers `true`: `parseInt('abc')` is `NaN`, the `Uint8Array`
coerces it to the single byte 0, and the three missing bytes read as
`undefined` and compare as 0 — so the claimed malformed-input no-match
does not hold, although no error propagates. -/
theorem malformed_ip_matches : isIPInCIDR "abc".data "0.0.0.0/32".data = true := by
  decide

/-- Lowercase hex digit character for a value below 16. -/
def hexDigitChar (d : Nat) : Char :=
  if d < 10 then Char.ofNat (48 + d) else Char.ofNat (87 + d)

/-- Big-endian hex digits of `n`, prepended to `acc`; `fuel ≥` the number
of digits (e.g. `n + 1`) makes the recursion total. -/
def toHexCore : Nat → Nat → Str → Str
  | 0, _, acc => acc
  | fuel + 1, n, acc =>
    if n < 16 then hexDigitChar n :: acc
    else toHexCore fuel (n / 16) (hexDigitChar (n % 16) :: acc)

/-- JS `Number.prototype.toString(16)` on a natural number: lowercase hex,
no leading zeros, `"0"` for zero. -/
def toHexStr (n : Nat) : Str := toHexCore (n + 1) n []

/-- JS `Array.prototype.join(':')`. -/
def joinColon : List Str → Str
  | [] => []
  | [g] => g
  | g :: rest => g ++ ':' :: joinColon rest

/-- `normalizeIP` (src/utils/httpClient.js lines 189-207): IPv4 strings
(no colon) pass through; IPv6 strings are parsed, bytes 8..15 zeroed, the
16-bit groups re-rendered in hex joined by `:` and suffixed `/64`. A
`RangeError` escaping `parseIPv6` is `none`. -/
def normalizeIP (ip : String) : Option String :=
  if ':' ∈ ip.data then
    (parseIPv6 ip.data).map (fun bytes =>
      ⟨joinColon ((List.range 8).map (fun i =>
          toHexStr ((((bytes.take 8 ++ List.replicate 8 0).getD (2 * i) 0) <<< 8)
            ||| ((bytes.take 8 ++ List.replicate 8 0).getD (2 * i + 1) 0))))
        ++ "/64".data⟩)
  else some ip

/-- The grammar of textual IPv6 addresses (RFC 4291 §2.2): hex groups
`pre`, an optional `::` (`dc`) followed by hex groups `post`, and an
optional trailing dotted-quad IPv4 part. A string is *syntactically valid*
iff it is `render` of a form satisfying `FormOK`. -/
structure IPv6Form where
  pre : List Str
  post : List Str
  dc : Bool
  v4 : Option (Nat × Nat × Nat × Nat)
  deriving Repr, DecidableEq

/-- A hex group: one to four hex digits. -/
def hexGroupOK (g : Str) : Bool :=
  decide (1 ≤ g.length) && decide (g.length ≤ 4) && g.all isHexDigitChar

/-- Rendering of the trailing IPv4 part. -/
def v4Str (q : Nat × Nat × Nat × Nat) : Str :=
  (toString q.1).data ++ '.' :: (toString q.2.1).data ++ '.' :: (toString q.2.2.1).data
    ++ '.' :: (toString q.2.2.2).data

/-- The trailing IPv4 part as a (possibly empty) final group list. -/
def v4Part : Option (Nat × Nat × Nat × Nat) → List Str
  | none => []
  | some q => [v4Str q]

/-- Text of an `IPv6Form`. -/
def render (f : IPv6Form) : Str :=
  if f.dc then
    joinColon f.pre ++ ':' :: ':' :: joinColon (f.post ++ v4Part f.v4)
  else joinColon (f.pre ++ v4Part f.v4)

/-- Number of 16-bit groups the form denotes explicitly (an IPv4 tail is
two groups). -/
def groupCount (f : IPv6Form) : Nat :=
  f.pre.length + f.post.length + (match f.v4 with | none => 0 | some _ => 2)

/-- Syntactic validity of a form: all groups are 1-4 hex digits, IPv4
octets are below 256, and the group count is 8 exactly (no `::`) or at
most 7 (`::` covers at least one group; `post` empty without `::`). -/
def FormOK (f : IPv6Form) : Bool :=
  f.pre.all hexGroupOK && f.post.all hexGroupOK &&
  (match f.v4 with
   | none => true
   | some q => decide (q.1 ≤ 255) && decide (q.2.1 ≤ 255)
       && decide (q.2.2.1 ≤ 255) && decide (q.2.2.2 ≤ 255)) &&
  (if f.dc then decide (groupCount f ≤ 7)
   else decide (groupCount f = 8) && f.post.isEmpty)

/-- The two group values of the IPv4 tail. -/
def v4Vals : Option (Nat × Nat × Nat × Nat) → List Nat
  | none => []
  | some q => [q.1 * 256 + q.2.1, q.2.2.1 * 256 + q.2.2.2]

/-- The eight 16-bit group values the form denotes (`::` fills zeros). -/
def groupVals (f : IPv6Form) : List Nat :=
  if f.dc then
    f.pre.map hexListVal
      ++ List.replicate (8 - f.pre.length - (f.post.map hexListVal ++ v4Vals f.v4).length) 0
      ++ (f.post.map hexListVal ++ v4Vals f.v4)
  else f.pre.map hexListVal ++ v4Vals f.v4

/-- The top 64 bits of the address: its first four 16-bit groups. -/
def top64 (f : IPv6Form) : List Nat := (groupVals f).take 4

/-- C8 counterexample form `1::2:3:4:5.6.7.8` (valid, with embedded IPv4). -/
def cexF : IPv6Form := ⟨[['1']], [['2'], ['3'], ['4']], true, some (5, 6, 7, 8)⟩

/-- C8 counterexample form `1::`. -/
def cexG : IPv6Form := ⟨[['1']], [], true, none⟩

/-- C8 counterexample: `1::2:3:4:5.6.7.8` and `1::` are syntactically
valid IPv6 strings whose top 64 bits differ (`1:0:0:2` vs `1:0:0:0`), yet
`normalizeIP` maps both to `1:0:0:0:0:0:0:0/64` — the parser counts the
embedded IPv4 tail as one group instead of two, shifting the `::` fill.
So `normalizeIP x = normalizeIP y` does not imply equal top 64 bits. -/
theorem normalize_top64_counterexample :
    FormOK cexF = true ∧ FormOK cexG = true
    ∧ normalizeIP ⟨render cexF⟩ = normalizeIP ⟨render cexG⟩
    ∧ top64 cexF ≠ top64 cexG := by
  decide

theorem splitOnChar_no_sep (sep : Char) :
    ∀ xs : Str, sep ∉ xs → splitOnChar sep xs = [xs] := by
  intro xs
  induction xs with
  | nil => intro _; rfl
  | cons c cs ih =>
    intro hmem
    have hc : ¬ (c = sep) := fun h => hmem (h ▸ List.mem_cons_self _ _)
    unfold splitOnChar
    rw [if_neg hc, ih (fun h => hmem (List.mem_cons_of_mem c h))]

theorem splitOnChar_append (sep : Char) (ys : Str) :
    ∀ xs : Str, sep ∉ xs → splitOnChar sep (xs ++ sep :: ys) = xs :: splitOnChar sep ys := by
  intro xs
  induction xs with
  | nil =>
    intro _
    show splitOnChar sep (sep :: ys) = [] :: splitOnChar sep ys
    simp [splitOnChar]
  | cons c cs ih =>
    intro hmem
    have hc : ¬ (c = sep) := fun h => hmem (h ▸ List.mem_cons_self _ _)
    rw [List.cons_append]
    rw [show splitOnChar sep (c :: (cs ++ sep :: ys))
        = if c = sep then [] :: splitOnChar sep (cs ++ sep :: ys)
          else match splitOnChar sep (cs ++ sep :: ys) with
            | [] => [[c]]
            | r :: rs => (c :: r) :: rs from rfl]
    rw [if_neg hc, ih (fun h => hmem (List.mem_cons_of_mem c h))]

/-- `splitOnChar` never returns the empty list. -/
theorem splitOnChar_ne_nil (sep : Char) : ∀ xs : Str, splitOnChar sep xs ≠ [] := by
  intro xs
  induction xs with
  | nil => simp [splitOnChar]
  | cons c cs ih =>
    unfold splitOnChar
    by_cases hc : c = sep
    · simp [hc]
    · rw [if_neg hc]
      rcases h : splitOnChar sep cs with _ | ⟨r, rs⟩
      · simp
      · simp

theorem splitOnChar_joinColon (gs : List Str) (hne : gs ≠ [])
    (hsep : ∀ g ∈ gs, ':' ∉ g) : splitOnChar ':' (joinColon gs) = gs := by
  induction gs with
  | nil => exact absurd rfl hne
  | cons g rest ih =>
    rcases rest with _ | ⟨g2, rest'⟩
    · exact splitOnChar_no_sep ':' g (hsep g (by simp))
    · show splitOnChar ':' (g ++ ':' :: joinColon (g2 :: rest')) = g :: (g2 :: rest')
      rw [splitOnChar_append ':' _ g (hsep g (by simp))]
      rw [ih (by simp) (fun x hx => hsep x (List.mem_cons_of_mem g hx))]

theorem splitOnChar_joinColon_append (gs : List Str) (t : Str) (hne : gs ≠ [])
    (hsep : ∀ g ∈ gs, ':' ∉ g) :
    splitOnChar ':' (joinColon gs ++ ':' :: t) = gs ++ splitOnChar ':' t := by
  induction gs with
  | nil => exact absurd rfl hne
  | cons g rest ih =>
    rcases rest with _ | ⟨g2, rest'⟩
    · show splitOnChar ':' (g ++ ':' :: t) = [g] ++ splitOnChar ':' t
      rw [splitOnChar_append ':' t g (hsep g (by simp))]
      rfl
    · show splitOnChar ':' ((g ++ ':' :: joinColon (g2 :: rest')) ++ ':' :: t)
        = (g :: (g2 :: rest')) ++ splitOnChar ':' t
      rw [List.append_assoc, List.cons_append,
        splitOnChar_append ':' _ g (hsep g (by simp))]
      rw [show joinColon (g2 :: rest') ++ ':' :: t = joinColon (g2 :: rest') ++ ':' :: t from rfl]
      rw [ih (by simp) (fun x hx => hsep x (List.mem_cons_of_mem g hx))]
      rfl

theorem findIdx?_append_first {α : Type} (p : α → Bool) (y : α) (ys : List α) :
    ∀ (xs : List α) (i : Nat), (∀ x ∈ xs, p x = false) → p y = true →
    (xs ++ y :: ys).findIdx? p i = some (i + xs.length) := by
  intro xs
  induction xs with
  | nil =>
    intro i _ hy
    simp [List.findIdx?_cons, hy]
  | cons x xs' ih =>
    intro i hxs hy
    rw [List.cons_append, List.findIdx?_cons, if_neg (by simp [hxs x (by simp)])]
    rw [ih (i + 1) (fun z hz => hxs z (List.mem_cons_of_mem x hz)) hy]
    simp only [List.length_cons]
    exact congrArg some (by omega)

theorem hexGroupOK_ne_nil (g : Str) (h : hexGroupOK g = true) : g ≠ [] := by
  simp only [hexGroupOK, Bool.and_eq_true, decide_eq_true_eq] at h
  intro hg
  rw [hg] at h
  simp at h

theorem hexGroupOK_no_colon (g : Str) (h : hexGroupOK g = true) : ':' ∉ g := by
  simp only [hexGroupOK, Bool.and_eq_true, decide_eq_true_eq, List.all_eq_true] at h
  intro hc
  have := h.2 ':' hc
  simp [isHexDigitChar] at this

/-- `expandParts` on a part list of shape `pre ++ "" :: mid` where `pre`
holds the nonempty groups before the first empty part and filtering `mid`
leaves `post`. -/
theorem expandParts_shape (pre post mid : List Str)
    (hpre : ∀ g ∈ pre, g ≠ []) (hpost : ∀ g ∈ post, g ≠ [])
    (hmid : mid.filter (fun p => ¬ p.isEmpty) = post)
    (hlen : pre.length + post.length ≤ 8) :
    expandParts (pre ++ ([] : Str) :: mid)
      = some (pre ++ List.replicate (8 - pre.length - post.length) ['0'] ++ post) := by
  have hfind : (pre ++ ([] : Str) :: mid).findIdx? (fun p => p.isEmpty) 0
      = some pre.length := by
    have := findIdx?_append_first (fun p => p.isEmpty) [] mid pre 0
      (fun x hx => by simpa using hpre x hx) (by simp)
    simpa using this
  have hfilterpre : pre.filter (fun p => ¬ p.isEmpty) = pre := by
    rw [List.filter_eq_self]
    intro a ha
    simpa using hpre a ha
  have htak : (pre ++ ([] : Str) :: mid).take pre.length = pre := List.take_left _ _
  have hdrp : (pre ++ ([] : Str) :: mid).drop (pre.length + 1) = mid := by
    have hsplit : pre ++ ([] : Str) :: mid = (pre ++ [([] : Str)]) ++ mid := by
      simp
    rw [hsplit]
    exact List.drop_left' (by simp)
  unfold expandParts
  rw [hfind]
  simp only [htak, hdrp, hfilterpre, hmid]
  rw [if_pos (by omega)]

theorem splitOnChar_cons_sep (sep : Char) (r : Str) :
    splitOnChar sep (sep :: r) = [] :: splitOnChar sep r := by
  simp [splitOnChar]

/-- The full 8-group part list produced by `expandParts` on a rendered
valid hex-form address. -/
def fullParts (f : IPv6Form) : List Str :=
  if f.dc then f.pre ++ List.replicate (8 - f.pre.length - f.post.length) ['0'] ++ f.post
  else f.pre

theorem expand_render (f : IPv6Form) (hOK : FormOK f = true) (hv4 : f.v4 = none) :
    expandParts (splitOnChar ':' (render f)) = some (fullParts f) := by
  obtain ⟨pre, post, dc, v4⟩ := f
  subst hv4
  simp only [FormOK, Bool.and_eq_true, List.all_eq_true] at hOK
  obtain ⟨⟨⟨hpreG, hpostG⟩, -⟩, hcount⟩ := hOK
  have hpreNE : ∀ g ∈ pre, g ≠ [] := fun g hg => hexGroupOK_ne_nil g (hpreG g hg)
  have hpreNC : ∀ g ∈ pre, ':' ∉ g := fun g hg => hexGroupOK_no_colon g (hpreG g hg)
  have hpostNE : ∀ g ∈ post, g ≠ [] := fun g hg => hexGroupOK_ne_nil g (hpostG g hg)
  have hpostNC : ∀ g ∈ post, ':' ∉ g := fun g hg => hexGroupOK_no_colon g (hpostG g hg)
  have hfpost : post.filter (fun p => ¬ p.isEmpty) = post := by
    rw [List.filter_eq_self]
    intro a ha
    simpa using hpostNE a ha
  cases dc with
  | true =>
    have hlen : pre.length + post.length ≤ 7 := by
      simp [groupCount] at hcount
      omega
    show expandParts (splitOnChar ':'
        (joinColon pre ++ ':' :: ':' :: joinColon (post ++ v4Part none))) = _
    rw [show v4Part none = ([] : List Str) from rfl, List.append_nil]
    by_cases hp : pre = []
    · by_cases hq : post = []
      · subst hp
        subst hq
        decide
      · subst hp
        rw [show joinColon ([] : List Str) = [] from rfl, List.nil_append]
        rw [splitOnChar_cons_sep, splitOnChar_cons_sep,
          splitOnChar_joinColon post hq hpostNC]
        have hfmid : (([] : Str) :: post).filter (fun p => ¬ p.isEmpty) = post := by
          rw [show (([] : Str) :: post).filter (fun p => ¬ p.isEmpty)
            = post.filter (fun p => ¬ p.isEmpty) from rfl, hfpost]
        have := expandParts_shape [] post (([] : Str) :: post) (by simp) hpostNE
          hfmid (by omega)
        simpa [fullParts] using this
    · by_cases hq : post = []
      · subst hq
        rw [show joinColon ([] : List Str) = [] from rfl]
        rw [show (':' :: ':' :: ([] : Str)) = ':' :: [':'] from rfl]
        rw [splitOnChar_joinColon_append pre [':'] hp hpreNC]
        rw [show splitOnChar ':' [':'] = [[], []] from rfl]
        have hfmid : ([([] : Str)]).filter (fun p => ¬ p.isEmpty) = [] := rfl
        have := expandParts_shape pre [] [([] : Str)] hpreNE (by simp) hfmid (by omega)
        have h2 : pre ++ [([] : Str), ([] : Str)] = pre ++ ([] : Str) :: [([] : Str)] := rfl
        rw [h2, this]
        simp [fullParts]
      · rw [splitOnChar_joinColon_append pre (':' :: joinColon post) hp hpreNC]
        rw [splitOnChar_cons_sep, splitOnChar_joinColon post hq hpostNC]
        have := expandParts_shape pre post post hpreNE hpostNE hfpost (by omega)
        rw [this]
        simp [fullParts]
  | false =>
    simp only [groupCount] at hcount
    have hcond : pre.length + post.length + 0 = 8 ∧ post.isEmpty = true := by
      simpa using hcount
    have hpost0 : post = [] := by simpa using hcond.2
    subst hpost0
    have hpre8 : pre.length = 8 := by
      have := hcond.1
      simpa using this
    show expandParts (splitOnChar ':' (joinColon (pre ++ v4Part none))) = _
    rw [show v4Part none = ([] : List Str) from rfl, List.append_nil]
    rw [splitOnChar_joinColon pre (by intro h; rw [h] at hpre8; simp at hpre8) hpreNC]
    unfold expandParts
    rw [List.findIdx?_eq_none_iff.mpr (fun x hx => by simpa using hpreNE x hx)]
    simp [fullParts]

theorem hex_not_space (c : Char) (h : isHexDigitChar c = true) : isJsSpace c = false := by
  by_contra hs
  rw [Bool.not_eq_false] at hs
  simp only [Proxy.isJsSpace, Bool.or_eq_true, decide_eq_true_eq] at hs
  rcases hs with (((((((rfl | rfl) | rfl) | rfl) | rfl) | rfl) | rfl) | rfl) <;>
    exact absurd h (by decide)

theorem hexDigitVal_lt (c : Char) (h : isHexDigitChar c = true) : hexDigitVal c < 16 := by
  simp only [isHexDigitChar, Bool.or_eq_true, Bool.and_eq_true, decide_eq_true_eq] at h
  unfold hexDigitVal
  rcases h with (⟨h1, h2⟩ | ⟨h1, h2⟩) | ⟨h1, h2⟩ <;> split_ifs <;> omega

theorem hexListVal_foldl_lt :
    ∀ (g : Str) (a : Nat), (∀ c ∈ g, isHexDigitChar c = true) →
    g.foldl (fun x c => x * 16 + hexDigitVal c) a < (a + 1) * 16 ^ g.length := by
  intro g
  induction g with
  | nil =>
    intro a _
    simpa using Nat.lt_succ_self a
  | cons c cs ih =>
    intro a hall
    show cs.foldl (fun x c => x * 16 + hexDigitVal c) (a * 16 + hexDigitVal c)
        < (a + 1) * 16 ^ (c :: cs).length
    have h1 := ih (a * 16 + hexDigitVal c) (fun x hx => hall x (List.mem_cons_of_mem c hx))
    have h2 : hexDigitVal c < 16 := hexDigitVal_lt c (hall c (List.mem_cons_self c cs))
    have h3 : (a * 16 + hexDigitVal c + 1) * 16 ^ cs.length ≤ ((a + 1) * 16) * 16 ^ cs.length :=
      Nat.mul_le_mul_right _ (by omega)
    have h4 : ((a + 1) * 16) * 16 ^ cs.length = (a + 1) * 16 ^ (c :: cs).length := by
      simp only [List.length_cons, pow_succ]
      ring
    omega

theorem hexListVal_lt_65536 (g : Str) (hOK : hexGroupOK g = true) :
    hexListVal g < 65536 := by
  simp only [hexGroupOK, Bool.and_eq_true, decide_eq_true_eq, List.all_eq_true] at hOK
  obtain ⟨⟨h1, h4⟩, hall⟩ := hOK
  have hb := hexListVal_foldl_lt g 0 hall
  have hpow : 16 ^ g.length ≤ 16 ^ 4 := Nat.pow_le_pow_right (by norm_num) h4
  have : (0 + 1) * 16 ^ g.length = 16 ^ g.length := by ring
  unfold hexListVal
  omega

theorem parseHexJS_valid (g : Str) (hne : g ≠ [])
    (hhex : ∀ c ∈ g, isHexDigitChar c = true) :
    parseHexJS g = some ((hexListVal g : Int)) := by
  rcases g with _ | ⟨c, rest⟩
  · exact absurd rfl hne
  have hcs : isJsSpace c = false := hex_not_space c (hhex c (List.mem_cons_self c rest))
  have hdrop : (c :: rest).dropWhile isJsSpace = c :: rest := by
    rw [List.dropWhile_cons, if_neg (by simp [hcs])]
  have hcm : c ≠ '-' := by
    intro h
    have := hhex c (List.mem_cons_self c rest)
    rw [h] at this
    exact absurd this (by decide)
  have hcp : c ≠ '+' := by
    intro h
    have := hhex c (List.mem_cons_self c rest)
    rw [h] at this
    exact absurd this (by decide)
  have htake : (c :: rest).takeWhile isHexDigitChar = c :: rest := by
    rw [List.takeWhile_eq_self_iff]
    exact hhex
  unfold parseHexJS
  rw [hdrop]
  split
  · rename_i r heq
    have h1 : c = '-' := by
      have h2 := congrArg List.head? heq
      simp only [List.head?, Option.some.injEq] at h2
      exact h2
    exact absurd h1 hcm
  · have hif : (if (c :: rest).head? = some '+' then List.drop 1 (c :: rest) else c :: rest)
        = c :: rest := by
      rw [if_neg]
      simp [hcp]
    rw [hif, htake, if_neg (by simp)]

/-- On a valid hex group, the two bytes stored by the `parseIPv6` loop are
the high and low byte of the group's value. -/
theorem group_bytes (g : Str) (hOK : hexGroupOK g = true) :
    jsHiByte (parseHexJS g) = hexListVal g / 256
    ∧ jsLoByte (parseHexJS g) = hexListVal g % 256 := by
  have hlt := hexListVal_lt_65536 g hOK
  simp only [hexGroupOK, Bool.and_eq_true, decide_eq_true_eq, List.all_eq_true] at hOK
  obtain ⟨⟨h1, -⟩, hall⟩ := hOK
  have hne : g ≠ [] := by
    intro h
    rw [h] at h1
    simp at h1
  rw [parseHexJS_valid g hne hall]
  have hnn : (0 : Int) ≤ (hexListVal g : Int) := Int.natCast_nonneg _
  have hlt32 : (hexListVal g : Int) < 2 ^ 32 := by
    exact_mod_cast (show hexListVal g < 2 ^ 32 by omega)
  have hmod : ((hexListVal g : Int)) % 2 ^ 32 = (hexListVal g : Int) :=
    Int.emod_eq_of_lt hnn hlt32
  constructor
  · simp only [jsHiByte]
    rw [hmod, Int.toNat_natCast, Nat.shiftRight_eq_div_pow]
    have h8 : (2 : Nat) ^ 8 = 256 := by norm_num
    rw [h8]
    omega
  · simp only [jsLoByte]
    rw [hmod, Int.toNat_natCast]

/-- Reassembling a 16-bit group from its two bytes, as the output loop of
`normalizeIP` does with `(hi << 8) | lo`. -/
theorem value_rebuild (v : Nat) : ((v / 256) <<< 8) ||| v % 256 = v := by
  rw [Nat.shiftLeft_eq]
  have h2 : v % 256 < 2 ^ 8 := by omega
  calc v / 256 * 2 ^ 8 ||| v % 256
      = 2 ^ 8 * (v / 256) ||| v % 256 := by rw [Nat.mul_comm]
    _ = 2 ^ 8 * (v / 256) + v % 256 := (Nat.mul_add_lt_is_or h2 (v / 256)).symm
    _ = v := by omega

theorem groupStr_of_ne (parts : List Str) (i : Nat) (g : Str)
    (hg : parts.getD i [] = g) (hne : g ≠ []) : groupStr parts i = g := by
  unfold groupStr
  rw [hg, if_neg (by simp [hne])]

theorem getD_map_hexListVal : ∀ (l : List Str) (i : Nat),
    (l.map hexListVal).getD i 0 = hexListVal (l.getD i []) := by
  intro l
  induction l with
  | nil =>
    intro i
    cases i <;> rfl
  | cons x xs ih =>
    intro i
    cases i with
    | zero => rw [List.map_cons, List.getD_cons_zero, List.getD_cons_zero]
    | succ n =>
      rw [List.map_cons, List.getD_cons_succ, List.getD_cons_succ]
      exact ih n

set_option maxHeartbeats 1000000 in
theorem hexVal_hexDigitChar (n : Nat) (h : n < 16) :
    hexDigitVal (hexDigitChar n) = n := by
  interval_cases n <;> decide

/-- Evaluating the hex digits produced by `toHexCore` recovers the number. -/
theorem foldl_toHexCore : ∀ (fuel n : Nat) (acc : Str), n < 16 ^ fuel →
    (toHexCore fuel n acc).foldl (fun x c => x * 16 + hexDigitVal c) 0
    = acc.foldl (fun x c => x * 16 + hexDigitVal c) n := by
  intro fuel
  induction fuel with
  | zero =>
    intro n acc hn
    have : n = 0 := by simpa using hn
    subst this
    rfl
  | succ fuel ih =>
    intro n acc hn
    by_cases hsmall : n < 16
    · show (toHexCore (fuel + 1) n acc).foldl _ 0 = _
      unfold toHexCore
      rw [if_pos hsmall, List.foldl_cons, Nat.zero_mul, Nat.zero_add,
        hexVal_hexDigitChar n hsmall]
    · unfold toHexCore
      rw [if_neg hsmall]
      have hdiv : n / 16 < 16 ^ fuel := by
        have : 16 ^ (fuel + 1) = 16 ^ fuel * 16 := by ring
        omega
      rw [ih (n / 16) (hexDigitChar (n % 16) :: acc) hdiv, List.foldl_cons,
        hexVal_hexDigitChar (n % 16) (by omega)]
      have : n / 16 * 16 + n % 16 = n := by omega
      rw [this]

theorem hexListVal_toHexStr (n : Nat) : hexListVal (toHexStr n) = n := by
  have hlt : n < 16 ^ (n + 1) := by
    have h1 : n < 16 ^ n := Nat.lt_pow_self (by norm_num) n
    have h2 : 16 ^ n ≤ 16 ^ (n + 1) := Nat.pow_le_pow_right (by norm_num) (by omega)
    omega
  unfold toHexStr hexListVal
  rw [foldl_toHexCore (n + 1) n [] hlt]
  rfl

theorem toHexStr_inj (m n : Nat) (h : toHexStr m = toHexStr n) : m = n := by
  rw [← hexListVal_toHexStr m, h, hexListVal_toHexStr]

set_option maxHeartbeats 1000000 in
theorem hexDigitChar_ne_colon (d : Nat) (h : d < 16) : hexDigitChar d ≠ ':' := by
  interval_cases d <;> decide

theorem toHexCore_mem : ∀ (fuel n : Nat) (acc : Str) (c : Char),
    c ∈ toHexCore fuel n acc → c ∈ acc ∨ ∃ d, d < 16 ∧ c = hexDigitChar d := by
  intro fuel
  induction fuel with
  | zero =>
    intro n acc c hc
    exact Or.inl hc
  | succ fuel ih =>
    intro n acc c hc
    unfold toHexCore at hc
    by_cases hsmall : n < 16
    · rw [if_pos hsmall] at hc
      rcases List.mem_cons.mp hc with h | h
      · exact Or.inr ⟨n, hsmall, h⟩
      · exact Or.inl h
    · rw [if_neg hsmall] at hc
      rcases ih (n / 16) (hexDigitChar (n % 16) :: acc) c hc with h | h
      · rcases List.mem_cons.mp h with h2 | h2
        · exact Or.inr ⟨n % 16, by omega, h2⟩
        · exact Or.inl h2
      · exact Or.inr h

theorem toHexStr_no_colon (n : Nat) : ':' ∉ toHexStr n := by
  intro h
  rcases toHexCore_mem (n + 1) n [] ':' h with h2 | ⟨d, hd, hc⟩
  · exact List.not_mem_nil ':' h2
  · exact hexDigitChar_ne_colon d hd hc.symm

/-- Peeling one colon-separated field off equal strings. -/
theorem append_colon_inj : ∀ (x y r t : Str), ':' ∉ x → ':' ∉ y →
    x ++ ':' :: r = y ++ ':' :: t → x = y ∧ r = t := by
  intro x
  induction x with
  | nil =>
    intro y r t _ hy h
    rcases y with _ | ⟨y0, ys⟩
    · exact ⟨rfl, by simpa using h⟩
    · rw [List.nil_append, List.cons_append] at h
      have h1 : ':' = y0 := by
        injection h with ha _
      refine absurd ?_ hy
      rw [← h1]
      exact List.mem_cons_self ':' ys
  | cons x0 xs ih =>
    intro y r t hx hy h
    rcases y with _ | ⟨y0, ys⟩
    · rw [List.cons_append, List.nil_append] at h
      have h1 : x0 = ':' := by
        injection h with ha _
      refine absurd ?_ hx
      rw [h1]  -- goal now mentions the head as a colon
      exact List.mem_cons_self ':' xs
    · rw [List.cons_append, List.cons_append] at h
      have h1 : x0 = y0 := by
        injection h with ha _
      have h2 : xs ++ ':' :: r = ys ++ ':' :: t := by
        injection h with _ hb
      have := ih ys r t (fun hm => hx (List.mem_cons_of_mem x0 hm))
        (fun hm => hy (List.mem_cons_of_mem y0 hm)) h2
      exact ⟨by rw [h1, this.1], this.2⟩

/-- The string `normalizeIP` produces: first four groups in hex, four zero
groups, and the `/64` suffix. It depends only on the top 64 bits. -/
def renderTop64 (a b c d : Nat) : Str :=
  joinColon [toHexStr a, toHexStr b, toHexStr c, toHexStr d,
    toHexStr 0, toHexStr 0, toHexStr 0, toHexStr 0] ++ "/64".data

theorem list_eight {α : Type} (l : List α) (hl : l.length = 8) :
    ∃ a b c d e g p q, l = [a, b, c, d, e, g, p, q] := by
  obtain ⟨a, l, rfl⟩ := List.exists_of_length_succ l hl
  obtain ⟨b, l, rfl⟩ := List.exists_of_length_succ l (by simpa using hl)
  obtain ⟨c, l, rfl⟩ := List.exists_of_length_succ l (by simpa using hl)
  obtain ⟨d, l, rfl⟩ := List.exists_of_length_succ l (by simpa using hl)
  obtain ⟨e, l, rfl⟩ := List.exists_of_length_succ l (by simpa using hl)
  obtain ⟨g, l, rfl⟩ := List.exists_of_length_succ l (by simpa using hl)
  obtain ⟨p, l, rfl⟩ := List.exists_of_length_succ l (by simpa using hl)
  obtain ⟨q, l, rfl⟩ := List.exists_of_length_succ l (by simpa using hl)
  have : l = [] := List.length_eq_zero.mp (by simpa using hl)
  subst this
  exact ⟨a, b, c, d, e, g, p, q, rfl⟩

/-- The output expression of `normalizeIP` evaluated on the bytes of eight
valid hex groups: only the first four groups reach the output. -/
theorem bytes_render_eq (p0 p1 p2 p3 p4 p5 p6 p7 : Str)
    (h0 : hexGroupOK p0 = true) (h1 : hexGroupOK p1 = true)
    (h2 : hexGroupOK p2 = true) (h3 : hexGroupOK p3 = true)
    (h4 : hexGroupOK p4 = true) (h5 : hexGroupOK p5 = true)
    (h6 : hexGroupOK p6 = true) (h7 : hexGroupOK p7 = true) :
    joinColon ((List.range 8).map (fun i =>
        toHexStr ((((bytesOfParts [p0, p1, p2, p3, p4, p5, p6, p7]).take 8
            ++ List.replicate 8 0).getD (2 * i) 0) <<< 8
          ||| (((bytesOfParts [p0, p1, p2, p3, p4, p5, p6, p7]).take 8
            ++ List.replicate 8 0).getD (2 * i + 1) 0))))
      ++ "/64".data
    = renderTop64 (hexListVal p0) (hexListVal p1) (hexListVal p2) (hexListVal p3) := by
  have hg0 : groupStr [p0, p1, p2, p3, p4, p5, p6, p7] 0 = p0 :=
    groupStr_of_ne _ 0 p0 rfl (hexGroupOK_ne_nil p0 h0)
  have hg1 : groupStr [p0, p1, p2, p3, p4, p5, p6, p7] 1 = p1 :=
    groupStr_of_ne _ 1 p1 rfl (hexGroupOK_ne_nil p1 h1)
  have hg2 : groupStr [p0, p1, p2, p3, p4, p5, p6, p7] 2 = p2 :=
    groupStr_of_ne _ 2 p2 rfl (hexGroupOK_ne_nil p2 h2)
  have hg3 : groupStr [p0, p1, p2, p3, p4, p5, p6, p7] 3 = p3 :=
    groupStr_of_ne _ 3 p3 rfl (hexGroupOK_ne_nil p3 h3)
  have hg4 : groupStr [p0, p1, p2, p3, p4, p5, p6, p7] 4 = p4 :=
    groupStr_of_ne _ 4 p4 rfl (hexGroupOK_ne_nil p4 h4)
  have hg5 : groupStr [p0, p1, p2, p3, p4, p5, p6, p7] 5 = p5 :=
    groupStr_of_ne _ 5 p5 rfl (hexGroupOK_ne_nil p5 h5)
  have hg6 : groupStr [p0, p1, p2, p3, p4, p5, p6, p7] 6 = p6 :=
    groupStr_of_ne _ 6 p6 rfl (hexGroupOK_ne_nil p6 h6)
  have hg7 : groupStr [p0, p1, p2, p3, p4, p5, p6, p7] 7 = p7 :=
    groupStr_of_ne _ 7 p7 rfl (hexGroupOK_ne_nil p7 h7)
  have hb0 := group_bytes p0 h0
  have hb1 := group_bytes p1 h1
  have hb2 := group_bytes p2 h2
  have hb3 := group_bytes p3 h3
  have hb4 := group_bytes p4 h4
  have hb5 := group_bytes p5 h5
  have hb6 := group_bytes p6 h6
  have hb7 := group_bytes p7 h7
  have hbytes : bytesOfParts [p0, p1, p2, p3, p4, p5, p6, p7]
      = [jsHiByte (parseHexJS (groupStr [p0, p1, p2, p3, p4, p5, p6, p7] 0)),
         jsLoByte (parseHexJS (groupStr [p0, p1, p2, p3, p4, p5, p6, p7] 0)),
         jsHiByte (parseHexJS (groupStr [p0, p1, p2, p3, p4, p5, p6, p7] 1)),
         jsLoByte (parseHexJS (groupStr [p0, p1, p2, p3, p4, p5, p6, p7] 1)),
         jsHiByte (parseHexJS (groupStr [p0, p1, p2, p3, p4, p5, p6, p7] 2)),
         jsLoByte (parseHexJS (groupStr [p0, p1, p2, p3, p4, p5, p6, p7] 2)),
         jsHiByte (parseHexJS (groupStr [p0, p1, p2, p3, p4, p5, p6, p7] 3)),
         jsLoByte (parseHexJS (groupStr [p0, p1, p2, p3, p4, p5, p6, p7] 3)),
         jsHiByte (parseHexJS (groupStr [p0, p1, p2, p3, p4, p5, p6, p7] 4)),
         jsLoByte (parseHexJS (groupStr [p0, p1, p2, p3, p4, p5, p6, p7] 4)),
         jsHiByte (parseHexJS (groupStr [p0, p1, p2, p3, p4, p5, p6, p7] 5)),
         jsLoByte (parseHexJS (groupStr [p0, p1, p2, p3, p4, p5, p6, p7] 5)),
         jsHiByte (parseHexJS (groupStr [p0, p1, p2, p3, p4, p5, p6, p7] 6)),
         jsLoByte (parseHexJS (groupStr [p0, p1, p2, p3, p4, p5, p6, p7] 6)),
         jsHiByte (parseHexJS (groupStr [p0, p1, p2, p3, p4, p5, p6, p7] 7)),
         jsLoByte (parseHexJS (groupStr [p0, p1, p2, p3, p4, p5, p6, p7] 7))] := rfl
  simp only [hbytes, hg0, hg1, hg2, hg3, hg4, hg5, hg6, hg7,
    hb0.1, hb0.2, hb1.1, hb1.2, hb2.1, hb2.2, hb3.1, hb3.2,
    hb4.1, hb4.2, hb5.1, hb5.2, hb6.1, hb6.2, hb7.1, hb7.2]
  show joinColon [toHexStr (((hexListVal p0 / 256) <<< 8) ||| hexListVal p0 % 256),
      toHexStr (((hexListVal p1 / 256) <<< 8) ||| hexListVal p1 % 256),
      toHexStr (((hexListVal p2 / 256) <<< 8) ||| hexListVal p2 % 256),
      toHexStr (((hexListVal p3 / 256) <<< 8) ||| hexListVal p3 % 256),
      toHexStr ((0 <<< 8) ||| 0), toHexStr ((0 <<< 8) ||| 0),
      toHexStr ((0 <<< 8) ||| 0), toHexStr ((0 <<< 8) ||| 0)] ++ "/64".data
    = renderTop64 (hexListVal p0) (hexListVal p1) (hexListVal p2) (hexListVal p3)
  rw [value_rebuild (hexListVal p0), value_rebuild (hexListVal p1),
    value_rebuild (hexListVal p2), value_rebuild (hexListVal p3)]
  rfl

theorem fullParts_length (f : IPv6Form) (hOK : FormOK f = true) (hv4 : f.v4 = none) :
    (fullParts f).length = 8 := by
  obtain ⟨pre, post, dc, v4⟩ := f
  subst hv4
  simp only [FormOK, Bool.and_eq_true] at hOK
  obtain ⟨-, hcount⟩ := hOK
  cases dc with
  | true =>
    have h7 : pre.length + post.length ≤ 7 := by
      simp [groupCount] at hcount
      omega
    simp [fullParts]
    omega
  | false =>
    simp only [groupCount] at hcount
    have hcond : pre.length + post.length + 0 = 8 ∧ post.isEmpty = true := by
      simpa using hcount
    have hpost0 : post = [] := by simpa using hcond.2
    subst hpost0
    have h8 : pre.length = 8 := by simpa using hcond.1
    simpa [fullParts] using h8

theorem fullParts_all (f : IPv6Form) (hOK : FormOK f = true) (hv4 : f.v4 = none) :
    ∀ g ∈ fullParts f, hexGroupOK g = true := by
  obtain ⟨pre, post, dc, v4⟩ := f
  subst hv4
  simp only [FormOK, Bool.and_eq_true, List.all_eq_true] at hOK
  obtain ⟨⟨⟨hpreG, hpostG⟩, -⟩, -⟩ := hOK
  intro g hg
  cases dc with
  | true =>
    simp only [fullParts] at hg
    rcases List.mem_append.mp hg with hg1 | hg2
    · rcases List.mem_append.mp hg1 with hga | hgb
      · exact hpreG g hga
      · have := List.eq_of_mem_replicate hgb
        subst this
        decide
    · exact hpostG g hg2
  | false => exact hpreG g (by simpa [fullParts] using hg)

theorem groupVals_eq_map (f : IPv6Form) (hOK : FormOK f = true) (hv4 : f.v4 = none) :
    groupVals f = (fullParts f).map hexListVal := by
  obtain ⟨pre, post, dc, v4⟩ := f
  subst hv4
  cases dc with
  | true =>
    simp [groupVals, fullParts, v4Vals, List.map_append, List.map_replicate,
      show hexListVal ['0'] = 0 by decide]
  | false => simp [groupVals, fullParts, v4Vals]

theorem groupVals_length (f : IPv6Form) (hOK : FormOK f = true) (hv4 : f.v4 = none) :
    (groupVals f).length = 8 := by
  rw [groupVals_eq_map f hOK hv4, List.length_map]
  exact fullParts_length f hOK hv4

theorem render_has_colon (f : IPv6Form) (hOK : FormOK f = true) (hv4 : f.v4 = none) :
    ':' ∈ render f := by
  obtain ⟨pre, post, dc, v4⟩ := f
  subst hv4
  cases dc with
  | true => simp [render]
  | false =>
    simp only [FormOK, Bool.and_eq_true] at hOK
    obtain ⟨-, hcount⟩ := hOK
    simp only [groupCount] at hcount
    have hcond : pre.length + post.length + 0 = 8 ∧ post.isEmpty = true := by
      simpa using hcount
    have hpost0 : post = [] := by simpa using hcond.2
    subst hpost0
    have h8 : pre.length = 8 := by simpa using hcond.1
    rcases pre with _ | ⟨g0, pre1⟩
    · simp at h8
    rcases pre1 with _ | ⟨g1, pre2⟩
    · simp at h8
    show ':' ∈ joinColon ((g0 :: g1 :: pre2) ++ v4Part none)
    rw [show v4Part none = ([] : List Str) from rfl, List.append_nil]
    show ':' ∈ g0 ++ ':' :: joinColon (g1 :: pre2)
    simp

/-- `normalizeIP` on a rendered valid hex-form address: the result is the
canonical `/64` string of its first four group values. -/
theorem normalizeIP_render (f : IPv6Form) (hOK : FormOK f = true) (hv4 : f.v4 = none) :
    normalizeIP ⟨render f⟩
      = some ⟨renderTop64 ((groupVals f).getD 0 0) ((groupVals f).getD 1 0)
          ((groupVals f).getD 2 0) ((groupVals f).getD 3 0)⟩ := by
  have hcol : ':' ∈ (String.mk (render f)).data := render_has_colon f hOK hv4
  have hfull := expand_render f hOK hv4
  have hlen := fullParts_length f hOK hv4
  have hall := fullParts_all f hOK hv4
  obtain ⟨p0, p1, p2, p3, p4, p5, p6, p7, hfp⟩ := list_eight (fullParts f) hlen
  have h0 : hexGroupOK p0 = true := hall p0 (by rw [hfp]; simp)
  have h1 : hexGroupOK p1 = true := hall p1 (by rw [hfp]; simp)
  have h2 : hexGroupOK p2 = true := hall p2 (by rw [hfp]; simp)
  have h3 : hexGroupOK p3 = true := hall p3 (by rw [hfp]; simp)
  have h4 : hexGroupOK p4 = true := hall p4 (by rw [hfp]; simp)
  have h5 : hexGroupOK p5 = true := hall p5 (by rw [hfp]; simp)
  have h6 : hexGroupOK p6 = true := hall p6 (by rw [hfp]; simp)
  have h7 : hexGroupOK p7 = true := hall p7 (by rw [hfp]; simp)
  unfold normalizeIP
  rw [if_pos hcol]
  unfold parseIPv6
  rw [show (String.mk (render f)).data = render f from rfl, hfull, hfp]
  rw [Option.map_some', Option.map_some']
  refine congrArg some (congrArg String.mk ?_)
  rw [bytes_render_eq p0 p1 p2 p3 p4 p5 p6 p7 h0 h1 h2 h3 h4 h5 h6 h7]
  rw [groupVals_eq_map f hOK hv4, hfp]
  simp only [getD_map_hexListVal]
  rfl

theorem joinColon8 (x1 x2 x3 x4 x5 x6 x7 x8 : Str) :
    joinColon [x1, x2, x3, x4, x5, x6, x7, x8]
    = x1 ++ ':' :: (x2 ++ ':' :: (x3 ++ ':' :: (x4 ++ ':'
        :: (x5 ++ ':' :: (x6 ++ ':' :: (x7 ++ ':' :: x8)))))) := rfl

theorem renderTop64_inj (a b c d e g p q : Nat)
    (h : renderTop64 a b c d = renderTop64 e g p q) :
    a = e ∧ b = g ∧ c = p ∧ d = q := by
  unfold renderTop64 at h
  rw [joinColon8, joinColon8] at h
  rw [List.append_assoc, List.append_assoc, List.cons_append, List.cons_append] at h
  have s1 := append_colon_inj _ _ _ _ (toHexStr_no_colon a) (toHexStr_no_colon e) h
  have h2 := s1.2
  rw [List.append_assoc, List.append_assoc, List.cons_append, List.cons_append] at h2
  have s2 := append_colon_inj _ _ _ _ (toHexStr_no_colon b) (toHexStr_no_colon g) h2
  have h3 := s2.2
  rw [List.append_assoc, List.append_assoc, List.cons_append, List.cons_append] at h3
  have s3 := append_colon_inj _ _ _ _ (toHexStr_no_colon c) (toHexStr_no_colon p) h3
  have h4 := s3.2
  rw [List.append_assoc, List.append_assoc, List.cons_append] at h4
  have s4 := append_colon_inj _ _ _ _ (toHexStr_no_colon d) (toHexStr_no_colon q) h4
  exact ⟨toHexStr_inj a e s1.1, toHexStr_inj b g s2.1,
    toHexStr_inj c p s3.1, toHexStr_inj d q s4.1⟩

theorem take4_eq_iff (l m : List Nat) (hl : l.length = 8) (hm : m.length = 8) :
    l.take 4 = m.take 4
    ↔ (l.getD 0 0 = m.getD 0 0 ∧ l.getD 1 0 = m.getD 1 0
       ∧ l.getD 2 0 = m.getD 2 0 ∧ l.getD 3 0 = m.getD 3 0) := by
  obtain ⟨a, b, c, d, e, g, p, q, rfl⟩ := list_eight l hl
  obtain ⟨a2, b2, c2, d2, e2, g2, p2, q2, rfl⟩ := list_eight m hm
  simp [List.getD]

/-- C8 (corrected): over syntactically valid *pure-hex* IPv6 address forms
(no embedded dotted-quad tail), `normalizeIP` maps two addresses to the
same string exactly when they agree on their top 64 bits, and on
colon-free (IPv4) input it is the identity. The original claim quantified
over all syntactically valid IPv6 strings; it fails on embedded-IPv4 forms
(see the counterexample), because `parseIPv6` counts the dotted-quad tail
as one group instead of two, shifting the `::` zero fill. -/
theorem normalize_ipv6_top64 (f g : IPv6Form)
    (hf : FormOK f = true) (hg : FormOK g = true)
    (hf4 : f.v4 = none) (hg4 : g.v4 = none) :
    (normalizeIP ⟨render f⟩ = normalizeIP ⟨render g⟩ ↔ top64 f = top64 g)
    ∧ (∀ s : String, ':' ∉ s.data → normalizeIP s = some s) := by
  have hbridge := take4_eq_iff (groupVals f) (groupVals g)
    (groupVals_length f hf hf4) (groupVals_length g hg hg4)
  constructor
  · rw [normalizeIP_render f hf hf4, normalizeIP_render g hg hg4]
    constructor
    · intro h
      have hXY : renderTop64 ((groupVals f).getD 0 0) ((groupVals f).getD 1 0)
          ((groupVals f).getD 2 0) ((groupVals f).getD 3 0)
          = renderTop64 ((groupVals g).getD 0 0) ((groupVals g).getD 1 0)
          ((groupVals g).getD 2 0) ((groupVals g).getD 3 0) :=
        congrArg String.data (Option.some.inj h)
      obtain ⟨e0, e1, e2, e3⟩ := renderTop64_inj _ _ _ _ _ _ _ _ hXY
      show (groupVals f).take 4 = (groupVals g).take 4
      exact hbridge.mpr ⟨e0, e1, e2, e3⟩
    · intro h
      obtain ⟨e0, e1, e2, e3⟩ := hbridge.mp h
      rw [e0, e1, e2, e3]
  · intro s hs
    unfold normalizeIP
    rw [if_neg hs]

/-- C8 witness: `2::1` and `2::3` share their top 64 bits, so the theorem
makes `normalizeIP` identify them; `10.0.0.1` passes through unchanged. -/
theorem normalize_ipv6_top64_witness :
    FormOK ⟨[['2']], [['1']], true, none⟩ = true
    ∧ (normalizeIP ⟨render ⟨[['2']], [['1']], true, none⟩⟩
        = normalizeIP ⟨render ⟨[['2']], [['3']], true, none⟩⟩
      ↔ top64 ⟨[['2']], [['1']], true, none⟩ = top64 ⟨[['2']], [['3']], true, none⟩)
    ∧ normalizeIP "10.0.0.1" = some "10.0.0.1" :=
  ⟨by decide,
   (normalize_ipv6_top64 ⟨[['2']], [['1']], true, none⟩ ⟨[['2']], [['3']], true, none⟩
     (by decide) (by decide) rfl rfl).1,
   (normalize_ipv6_top64 ⟨[['2']], [['1']], true, none⟩ ⟨[['2']], [['3']], true, none⟩
     (by decide) (by decide) rfl rfl).2 "10.0.0.1" (by decide)⟩

end Cidr
